import Mathlib

/-!
# Debug-info cursor (`dwarf/reader`)

A shallow embedding of `dwarf/reader/reader.go`: the cursor `reader.Reader`
wrapping the entry reader of Go's `debug/dwarf`, with its five scans
(`SeekToFunction`, `SeekToType`, `NextScopeVariable`, `NextMemberVariable`,
`NextPackageVariable`).

The entry stream is a list of items addressed by index; an offset
(`dwarf.Offset`, a `uint32` in Go) is an index into that list, a natural
number, and so is a program counter (`uint64`): the code only compares them.
The compile units of the section are laid out one after the other in the one
stream.  Loops of the Go code are structural recursions on a fuel argument and
return `none` when the fuel runs out, so a result `some _` is always a result
the Go code produces; the theorems give the fuel that suffices.
-/

namespace dwarf

abbrev Tag := Nat

abbrev Attr := Nat

def TagFormalParameter : Tag := 0x05

def TagMember : Tag := 0x0D

def TagPointerType : Tag := 0x0F

def TagCompileUnit : Tag := 0x11

def TagStructType : Tag := 0x13

def TagTypedef : Tag := 0x16

def TagBaseType : Tag := 0x24

def TagSubprogram : Tag := 0x2E

def TagVariable : Tag := 0x34

def AttrSibling : Attr := 0x01

def AttrName : Attr := 0x03

def AttrLowpc : Attr := 0x11

def AttrHighpc : Attr := 0x12

def AttrExternal : Attr := 0x3F

def AttrType : Attr := 0x49

/-- Modelled from the spec: the dynamic value of an attribute as the external
debug-info library hands it out (`interface{}` in Go); a type assertion such as
`.(uint64)` succeeds exactly on the matching constructor. -/
inductive Value where
  | uint64 (v : Nat)
  | int64 (v : Int)
  | offset (v : Nat)
  | bool (v : Bool)
  | string (v : String)
  | bytes (v : List Nat)
  deriving DecidableEq, Repr

/-- Modelled from the spec: one attribute of an entry (`dwarf.Field`). -/
structure Field where
  Attr : dwarf.Attr
  Val : Value
  deriving DecidableEq, Repr

/-- Modelled from the spec: a debug-info entry (`dwarf.Entry`): its offset, its
tag, whether its abbreviation declares children, and its attributes. -/
structure Entry where
  Offset : Nat
  Tag : dwarf.Tag
  Children : Bool
  Field : List dwarf.Field
  deriving DecidableEq, Repr

/-- Modelled from the spec: `Entry.Val` of the external library, the value of
the first field with the given attribute, `none` (Go `nil`) without one. -/
def Entry.Val (e : Entry) (a : Attr) : Option Value :=
  match e.Field.find? (fun f => f.Attr == a) with
  | some f => some f.Val
  | none => none

/-- Modelled from the spec: one encoded item of the entry stream of the
external library: the terminator (abbreviation code 0, "no more siblings at
this depth"), a well-encoded entry, or bytes that do not decode. -/
inductive Item where
  | null
  | die (tag : Tag) (children : Bool) (field : List Field)
  | bad (err : String)
  deriving DecidableEq, Repr

/-- Modelled from the spec: the debug-info section (`dwarf.Data`), the entries
of all compile units in depth-first, depth-terminated order. -/
abbrev Data := List Item

/-- Modelled from the spec: the entry reader of the external library
(`dwarf.Reader`): the data, the offset of its buffer, its sticky error, and
what it remembers of the entry `Next` returned last. -/
structure Reader where
  d : Data
  off : Nat
  err : Option String
  lastChildren : Bool
  lastSibling : Nat
  deriving DecidableEq, Repr

/-- Modelled from the spec: `Data.Reader` of the external library, a reader
positioned at the start of the section. -/
def Data.Reader (d : Data) : Reader :=
  { d := d, off := 0, err := none, lastChildren := false, lastSibling := 0 }

/-- Modelled from the spec: `Reader.Seek` of the external library.  It clears
the error and `lastChildren`; offset 0 is always accepted, any other offset must
lie inside the section, else the reader's error becomes "offset out of range"
and the buffer stays where it was. -/
def Reader.Seek (r : Reader) (off : Nat) : Reader :=
  if off = 0 then
    { r with err := none, lastChildren := false, off := 0 }
  else if off < r.d.length then
    { r with err := none, lastChildren := false, off := off }
  else
    { r with err := some "offset out of range", lastChildren := false }

/-- Modelled from the spec: the `AttrSibling` value `Next` remembers,
`e.Val(AttrSibling).(Offset)` with Go's zero value when the assertion fails. -/
def siblingOf (field : List Field) : Nat :=
  match field.find? (fun f => f.Attr == AttrSibling) with
  | some f =>
    match f.Val with
    | Value.offset s => s
    | _ => 0
  | none => 0

/-- Modelled from the spec: `Reader.Next` of the external library.  A sticky
error is returned again; at the end of the section the result is `(nil, nil)`;
bytes that do not decode set the error and give `(nil, err)`; the terminator
decodes to the zero entry (tag 0, offset 0); any other entry gets the offset it
was read at, and the reader remembers its `Children` flag and sibling. -/
def Reader.Next (r : Reader) : (Option Entry × Option String) × Reader :=
  match r.err with
  | some e => ((none, some e), r)
  | none =>
    match r.d[r.off]? with
    | none => ((none, none), r)
    | some (Item.bad msg) => ((none, some msg), { r with err := some msg })
    | some Item.null =>
      ((some { Offset := 0, Tag := 0, Children := false, Field := [] }, none),
        { r with off := r.off + 1, lastChildren := false })
    | some (Item.die tag children field) =>
      ((some { Offset := r.off, Tag := tag, Children := children, Field := field }, none),
        { r with
          off := r.off + 1
          lastChildren := children
          lastSibling := if children then siblingOf field else r.lastSibling })

/-- Modelled from the spec: the decoding loop of `Reader.SkipChildren` of the
external library, `for { e, err := r.Next(); if err != nil || e == nil ||
e.Tag == 0 { break }; if e.Children { r.SkipChildren() } }`, with the nested
call passed as `skip`. -/
def skipLoop (skip : Reader → Option Reader) : Nat → Reader → Option Reader
  | 0, _ => none
  | fuel + 1, r =>
    match r.Next with
    | ((some e, none), r1) =>
      if e.Tag = 0 then some r1
      else if e.Children then
        match skip r1 with
        | some r2 => skipLoop skip fuel r2
        | none => none
      else skipLoop skip fuel r1
    | (_, r1) => some r1

/-- Modelled from the spec: `Reader.SkipChildren` of the external library.  A
no-op after an error or when the last entry had no children; when the last
entry carried a sibling offset at or past the buffer it seeks there; otherwise
it decodes entries up to the terminator, skipping nested children. -/
def Reader.SkipChildren : Nat → Reader → Option Reader
  | 0, _ => none
  | fuel + 1, r =>
    if r.err.isSome || !r.lastChildren then some r
    else if r.lastSibling ≥ r.off then some (r.Seek r.lastSibling)
    else skipLoop (Reader.SkipChildren fuel) fuel r

/-- The enclosing entries of stream position `p`, innermost first: the offsets
of the entries with children that were opened before `p` and not yet closed by
a terminator.  This is the parent/child structure "discovered by depth-first
traversal order with an explicit terminator entry". -/
def ancestors (d : Data) : Nat → List Nat
  | 0 => []
  | p + 1 =>
    match d[p]? with
    | some (Item.die _ true _) => p :: ancestors d p
    | some Item.null => (ancestors d p).tail
    | _ => ancestors d p

/-- The entry a successful `Next` decodes at offset `off`. -/
def readAt (d : Data) (off : Nat) : Option Entry :=
  match d[off]? with
  | some (Item.die t c f) => some { Offset := off, Tag := t, Children := c, Field := f }
  | some Item.null => some { Offset := 0, Tag := 0, Children := false, Field := [] }
  | _ => none

/-- The tag of the entry encoded at offset `off` (0 where there is none). -/
def tagAt (d : Data) (off : Nat) : Tag :=
  match d[off]? with
  | some (Item.die t _ _) => t
  | _ => 0

/-- The entry at offset `j` is a direct child of the entry at offset `i`. -/
def isChild (d : Data) (i j : Nat) : Prop :=
  (ancestors d j).head? = some i

instance (d : Data) (i j : Nat) : Decidable (isChild d i j) :=
  inferInstanceAs (Decidable ((ancestors d j).head? = some i))

/-- Position `j` lies inside the children of some subprogram entry. -/
def inSubprogram (d : Data) (j : Nat) : Prop :=
  ∃ a ∈ ancestors d j, tagAt d a = TagSubprogram

instance (d : Data) (j : Nat) : Decidable (inSubprogram d j) :=
  inferInstanceAs (Decidable (∃ a ∈ ancestors d j, tagAt d a = TagSubprogram))

/-- A sibling offset `s` on the entry at `q` is harmless (`s ≤ q`, never
followed) or correct: every position between `q` and `s` lies inside `q`, and
`s`, when inside the section, is at the nesting of `q` again. -/
def siblingOK (d : Data) (q s : Nat) : Bool :=
  decide (s ≤ q) ||
    ((List.range' (q + 1) (min s d.length - (q + 1))).all
        (fun j => decide (q ∈ ancestors d j)) &&
      (decide (d.length ≤ s) || decide (ancestors d s = ancestors d q)))

/-- What well-formedness asks of the item at offset `q`: it decodes, an entry
has a non-zero tag (tag 0 is the terminator), and an entry with children has no
misleading sibling attribute. -/
def itemOK (d : Data) (q : Nat) : Item → Bool
  | Item.null => true
  | Item.bad _ => false
  | Item.die t c f => decide (t ≠ 0) && (!c || siblingOK d q (siblingOf f))

/-- A well-formed entry stream: every item satisfies `itemOK`.  Child lists
need not even be closed before the end of the section. -/
def wellFormed (d : Data) : Bool :=
  (List.range d.length).all fun q =>
    match d[q]? with
    | some it => itemOK d q it
    | none => true

/-- The offset at which the next `Next` reads, or the length of the section
when the next `Next` returns no entry (sticky error or end of section). -/
def Reader.epos (r : Reader) : Nat :=
  if r.err = none ∧ r.off < r.d.length then r.off else r.d.length

/-- The state of the reader once the entry at offset `q` and all of its
children are behind it: everything passed lies inside `q`, and a reader that
can still read stands at the nesting of `q`. -/
def Skipped (d : Data) (q : Nat) (r : Reader) : Prop :=
  r.d = d ∧ q < r.epos ∧ (∀ j, q < j → j < r.epos → q ∈ ancestors d j) ∧
    (r.err = none → r.off < d.length → ancestors d r.off = ancestors d q)

end dwarf

namespace reader

open dwarf

/-- The cursor of `reader.go`: the embedded `*dwarf.Reader` (the field a Go
embedding names `Reader`, here `dr`) and a depth. -/
structure Reader where
  dr : dwarf.Reader
  depth : Int
  deriving DecidableEq, Repr

/-- The pair `(*dwarf.Entry, error)` the scans return. -/
abbrev Result := Option Entry × Option String

/-- `New`: a reader for the specified dwarf data. -/
def New (data : Data) : Reader :=
  { dr := data.Reader, depth := 0 }

/-- `Reader.Seek`: moves the reader to an arbitrary offset. -/
def Reader.Seek (reader : Reader) (off : Nat) : Reader :=
  { dr := reader.dr.Seek off, depth := 0 }

/-- The promoted method `Next` of the embedded reader. -/
def Reader.Next (reader : Reader) : Result × Reader :=
  let res := reader.dr.Next
  (res.1, { reader with dr := res.2 })

/-- The promoted method `SkipChildren` of the embedded reader. -/
def Reader.SkipChildren (fuel : Nat) (reader : Reader) : Option Reader :=
  match reader.dr.SkipChildren fuel with
  | some r => some { reader with dr := r }
  | none => none

/-- `Reader.SeekToEntry`: moves the reader to an arbitrary entry. -/
def Reader.SeekToEntry (reader : Reader) (entry : Entry) : Option String × Reader :=
  let reader := reader.Seek entry.Offset
  -- Consume the current entry so .Next works as intended
  let res := reader.Next
  (res.1.2, res.2)

/-- The loop of `SeekToFunction`; its condition `entry != nil` is tested
before the body looks at `err`. -/
def Reader.seekToFunctionLoop (pc : Nat) : Nat → Reader → Option (Result × Reader)
  | 0, _ => none
  | fuel + 1, reader =>
    match reader.Next with
    | ((none, _), reader) => some ((none, some "unable to find function context"), reader)
    | ((some entry, err), reader) =>
      if err.isSome then some ((none, err), reader)
      else if entry.Tag ≠ TagSubprogram then Reader.seekToFunctionLoop pc fuel reader
      else
        match entry.Val AttrLowpc with
        | some (Value.uint64 lowpc) =>
          match entry.Val AttrHighpc with
          | some (Value.uint64 highpc) =>
            if lowpc ≤ pc ∧ highpc ≥ pc then some ((some entry, none), reader)
            else Reader.seekToFunctionLoop pc fuel reader
          | _ => Reader.seekToFunctionLoop pc fuel reader
        | _ => Reader.seekToFunctionLoop pc fuel reader

/-- `Reader.SeekToFunction`: moves the reader to the function that includes the
specified program counter. -/
def Reader.SeekToFunction (fuel : Nat) (reader : Reader) (pc : Nat) : Option (Result × Reader) :=
  Reader.seekToFunctionLoop pc fuel (reader.Seek 0)

/-- The loop of `SeekToType`, walking the types to the base. -/
def Reader.seekToTypeLoop (resolveTypedefs resolvePointerTypes : Bool) :
    Nat → Reader → Option (Result × Reader)
  | 0, _ => none
  | fuel + 1, reader =>
    match reader.Next with
    | ((none, _), reader) => some ((none, some "no type entry found"), reader)
    | ((some typeEntry, err), reader) =>
      if err.isSome then some ((none, err), reader)
      else if typeEntry.Tag = TagTypedef ∧ !resolveTypedefs then
        some ((some typeEntry, none), reader)
      else if typeEntry.Tag = TagPointerType ∧ !resolvePointerTypes then
        some ((some typeEntry, none), reader)
      else
        match typeEntry.Val AttrType with
        | some (Value.offset offset) =>
          Reader.seekToTypeLoop resolveTypedefs resolvePointerTypes fuel (reader.Seek offset)
        | _ => some ((some typeEntry, none), reader)

/-- `Reader.SeekToType`: moves the reader to the type specified by the entry,
optionally resolving typedefs and pointer types. -/
def Reader.SeekToType (fuel : Nat) (reader : Reader) (entry : Entry)
    (resolveTypedefs resolvePointerTypes : Bool) : Option (Result × Reader) :=
  match entry.Val AttrType with
  | some (Value.offset offset) =>
    -- Seek to the first type offset
    Reader.seekToTypeLoop resolveTypedefs resolvePointerTypes fuel (reader.Seek offset)
  | _ => some ((none, some "entry does not have a type attribute"), reader)

/-- `Reader.NextScopeVariable`: moves the reader to the next debug entry that
describes a local variable and returns the entry. -/
def Reader.NextScopeVariable : Nat → Reader → Option (Result × Reader)
  | 0, _ => none
  | fuel + 1, reader =>
    match reader.Next with
    | ((none, _), reader) => some ((none, none), reader)
    | ((some entry, err), reader) =>
      if err.isSome then some ((none, err), reader)
      else
        -- All scope variables will be at the same depth
        match reader.SkipChildren fuel with
        | none => none
        | some reader =>
          -- End of the current depth
          if entry.Tag = 0 then some ((none, none), reader)
          else if entry.Tag = TagVariable ∨ entry.Tag = TagFormalParameter then
            some ((some entry, none), reader)
          else Reader.NextScopeVariable fuel reader

/-- `Reader.NextMemberVariable`: moves the reader to the next debug entry that
describes a member variable and returns the entry. -/
def Reader.NextMemberVariable : Nat → Reader → Option (Result × Reader)
  | 0, _ => none
  | fuel + 1, reader =>
    match reader.Next with
    | ((none, _), reader) => some ((none, none), reader)
    | ((some entry, err), reader) =>
      if err.isSome then some ((none, err), reader)
      else
        -- All member variables will be at the same depth
        match reader.SkipChildren fuel with
        | none => none
        | some reader =>
          -- End of the current depth
          if entry.Tag = 0 then some ((none, none), reader)
          else if entry.Tag = TagMember then some ((some entry, none), reader)
          else Reader.NextMemberVariable fuel reader

/-- `Reader.NextPackageVariable`: moves the reader to the next debug entry that
describes a package variable; any `TagVariable` entry that is not inside a sub
program entry and is marked external is considered a package variable. -/
def Reader.NextPackageVariable : Nat → Reader → Option (Result × Reader)
  | 0, _ => none
  | fuel + 1, reader =>
    match reader.Next with
    | ((none, _), reader) => some ((none, none), reader)
    | ((some entry, err), reader) =>
      if err.isSome then some ((none, err), reader)
      else if entry.Tag = TagVariable ∧ entry.Val AttrExternal = some (Value.bool true) then
        some ((some entry, none), reader)
      else if entry.Tag = TagSubprogram then
        -- Ignore everything inside sub programs
        match reader.SkipChildren fuel with
        | none => none
        | some reader => Reader.NextPackageVariable fuel reader
      else Reader.NextPackageVariable fuel reader

/-- The shape shared by `NextScopeVariable` and `NextMemberVariable`: advance,
skip the entry's children, stop at the terminator, return an entry whose tag is
wanted. -/
def Reader.nextAtLevel (want : Tag → Bool) : Nat → Reader → Option (Result × Reader)
  | 0, _ => none
  | fuel + 1, reader =>
    match reader.Next with
    | ((none, _), reader) => some ((none, none), reader)
    | ((some entry, err), reader) =>
      if err.isSome then some ((none, err), reader)
      else
        match reader.SkipChildren fuel with
        | none => none
        | some reader =>
          if entry.Tag = 0 then some ((none, none), reader)
          else if want entry.Tag then some ((some entry, none), reader)
          else Reader.nextAtLevel want fuel reader

/-- A caller's loop over one of the `Next...Variable` scans: call `next` until
it returns no entry, collecting the entries returned. -/
def collect (next : Reader → Option (Result × Reader)) : Nat → Reader → Option (List Entry × Reader)
  | 0, _ => none
  | n + 1, reader =>
    match next reader with
    | none => none
    | some ((none, _), reader) => some ([], reader)
    | some ((some entry, _), reader) =>
      match collect next n reader with
      | none => none
      | some (entries, reader) => some (entry :: entries, reader)

/-- The tags `NextScopeVariable` returns. -/
def isScopeTag (t : Tag) : Bool :=
  decide (t = TagVariable ∨ t = TagFormalParameter)

/-- The tags `NextMemberVariable` returns. -/
def isMemberTag (t : Tag) : Bool :=
  decide (t = TagMember)

/-- The entry at offset `j` when it is a direct child of the entry at offset
`i` with a wanted tag. -/
def childAt (d : Data) (i : Nat) (want : Tag → Bool) (j : Nat) : Option Entry :=
  match d[j]? with
  | some (Item.die t c f) =>
    if isChild d i j ∧ want t = true then
      some { Offset := j, Tag := t, Children := c, Field := f }
    else none
  | _ => none

/-- The direct children of the entry at offset `i` with a wanted tag, in stream
order. -/
def childrenOf (d : Data) (i : Nat) (want : Tag → Bool) : List Entry :=
  (List.range d.length).filterMap (childAt d i want)

/-- The entry at offset `j` when it is a variable marked external that is not
inside any subprogram entry. -/
def packageVarAt (d : Data) (j : Nat) : Option Entry :=
  match d[j]? with
  | some (Item.die t c f) =>
    let e : Entry := { Offset := j, Tag := t, Children := c, Field := f }
    if t = TagVariable ∧ e.Val AttrExternal = some (Value.bool true) ∧ ¬ inSubprogram d j then
      some e
    else none
  | _ => none

/-- The reader has just returned entry `e`: it decoded `e` at the offset before
the one it stands at, without error. -/
def JustRead (d : Data) (e : Entry) (r : dwarf.Reader) : Prop :=
  r.d = d ∧ r.err = none ∧ ∃ p, r.off = p + 1 ∧ readAt d p = some e

/-- The entries `f` selects among the offsets the reader has not passed yet. -/
def remaining (f : Nat → Option Entry) (r : dwarf.Reader) : List Entry :=
  (List.range' r.epos (r.d.length - r.epos)).filterMap f

/-- The reader stands among the direct children of the entry at offset `i`
(or can read no further). -/
def AtLevel (d : Data) (i : Nat) (r : dwarf.Reader) : Prop :=
  r.d = d ∧ (r.err = none → r.off < d.length → ancestors d r.off = i :: ancestors d i)

/-- The reader does not stand inside a subprogram entry (or can read no
further). -/
def Outside (d : Data) (r : dwarf.Reader) : Prop :=
  r.d = d ∧ (r.err = none → r.off < d.length → ¬ inSubprogram d r.off)

/-- All package variables of the stream, in stream order. -/
def packageVars (d : Data) : List Entry :=
  (List.range d.length).filterMap (packageVarAt d)

/-- The offset in the `Type` attribute of an entry, when it has one of class
offset (`entry.Val(dwarf.AttrType).(dwarf.Offset)`). -/
def typeOffset (e : Entry) : Option Nat :=
  match e.Val AttrType with
  | some (Value.offset o) => some o
  | _ => none

/-- The chain `c0, c1, ...` of `Type` back-references that starts at offset
`off`: each entry is readable at the offset the one before names, and the
chain ends with the first entry without a `Type` offset. -/
def isTypeChain (d : Data) : Nat → List Entry → Prop
  | _, [] => False
  | off, c :: rest =>
    readAt d off = some c ∧
      match typeOffset c with
      | none => rest = []
      | some o => isTypeChain d o rest

/-- Where the spec lets type resolution stop: at a typedef the caller does not
resolve, at a pointer type the caller does not resolve, or at an entry without
a further `Type` attribute. -/
def stopsAt (resolveTypedefs resolvePointerTypes : Bool) (c : Entry) : Bool :=
  (decide (c.Tag = TagTypedef) && !resolveTypedefs) ||
    (decide (c.Tag = TagPointerType) && !resolvePointerTypes) ||
    (typeOffset c).isNone

/-! ### Example streams -/

/-- Two functions laid out back to back: the first occupies `[0x10, 0x20)`,
the second `[0x20, 0x30)`. -/
def adjacentFunctions : Data :=
  [ Item.die TagCompileUnit true [],
    Item.die TagSubprogram false
      [⟨AttrName, Value.string "main.barfoo"⟩, ⟨AttrLowpc, Value.uint64 0x10⟩,
        ⟨AttrHighpc, Value.uint64 0x20⟩],
    Item.die TagSubprogram false
      [⟨AttrName, Value.string "main.foobar"⟩, ⟨AttrLowpc, Value.uint64 0x20⟩,
        ⟨AttrHighpc, Value.uint64 0x30⟩],
    Item.null ]

/-- A section whose first entry does not decode. -/
def malformed : Data :=
  [ Item.bad "unknown abbreviation" ]

/-- An entry whose `Type` attribute points at offset 0. -/
def typedAtZero : Entry :=
  { Offset := 7, Tag := TagVariable, Children := false,
    Field := [⟨AttrName, Value.string "a1"⟩, ⟨AttrType, Value.offset 0⟩] }

/-- Tag of a lexical block. -/
def TagLexDwarfBlock : Tag := 0x0B

/-- A stream in the shape of the fixture `testvariables.go`: the struct types
`FooBar` and `FooBar2` (same member names, different order), the functions
`barfoo` and `foobar` with their parameters and locals, a nested block inside
`foobar`, and a package variable. -/
def fixture : Data :=
  [ /- 0 -/ Item.die TagCompileUnit true [⟨AttrName, Value.string "testvariables.go"⟩],
    /- 1 -/ Item.die TagBaseType false [⟨AttrName, Value.string "int"⟩],
    /- 2 -/ Item.die TagStructType true [⟨AttrName, Value.string "main.FooBar"⟩],
    /- 3 -/ Item.die TagMember false [⟨AttrName, Value.string "Baz"⟩, ⟨AttrType, Value.offset 1⟩],
    /- 4 -/ Item.die TagMember false [⟨AttrName, Value.string "Bur"⟩, ⟨AttrType, Value.offset 1⟩],
    /- 5 -/ Item.null,
    /- 6 -/ Item.die TagStructType true [⟨AttrName, Value.string "main.FooBar2"⟩],
    /- 7 -/ Item.die TagMember false [⟨AttrName, Value.string "Bur"⟩, ⟨AttrType, Value.offset 1⟩],
    /- 8 -/ Item.die TagMember false [⟨AttrName, Value.string "Baz"⟩, ⟨AttrType, Value.offset 1⟩],
    /- 9 -/ Item.null,
    /- 10 -/ Item.die TagTypedef false
      [⟨AttrName, Value.string "main.Alias"⟩, ⟨AttrType, Value.offset 6⟩],
    /- 11 -/ Item.die TagSubprogram true
      [⟨AttrName, Value.string "main.barfoo"⟩, ⟨AttrLowpc, Value.uint64 0x10⟩,
        ⟨AttrHighpc, Value.uint64 0x20⟩],
    /- 12 -/ Item.die TagVariable false
      [⟨AttrName, Value.string "a1"⟩, ⟨AttrType, Value.offset 1⟩,
        ⟨AttrExternal, Value.bool true⟩],
    /- 13 -/ Item.null,
    /- 14 -/ Item.die TagSubprogram true
      [⟨AttrName, Value.string "main.foobar"⟩, ⟨AttrLowpc, Value.uint64 0x20⟩,
        ⟨AttrHighpc, Value.uint64 0x30⟩],
    /- 15 -/ Item.die TagFormalParameter false
      [⟨AttrName, Value.string "baz"⟩, ⟨AttrType, Value.offset 1⟩],
    /- 16 -/ Item.die TagVariable false
      [⟨AttrName, Value.string "a1"⟩, ⟨AttrType, Value.offset 1⟩],
    /- 17 -/ Item.die TagLexDwarfBlock true [⟨AttrSibling, Value.offset 20⟩],
    /- 18 -/ Item.die TagVariable false
      [⟨AttrName, Value.string "inner"⟩, ⟨AttrType, Value.offset 1⟩],
    /- 19 -/ Item.null,
    /- 20 -/ Item.die TagVariable false
      [⟨AttrName, Value.string "a8"⟩, ⟨AttrType, Value.offset 10⟩],
    /- 21 -/ Item.null,
    /- 22 -/ Item.die TagVariable false
      [⟨AttrName, Value.string "main.global"⟩, ⟨AttrType, Value.offset 1⟩,
        ⟨AttrExternal, Value.bool true⟩],
    /- 23 -/ Item.null ]

/-- The struct type `main.FooBar2` of the fixture, at offset 6. -/
def fixtureFooBar2 : Entry :=
  { Offset := 6, Tag := TagStructType, Children := true,
    Field := [⟨AttrName, Value.string "main.FooBar2"⟩] }

/-- The member `Bur` of `main.FooBar2`, declared first. -/
def fixtureBur : Entry :=
  { Offset := 7, Tag := TagMember, Children := false,
    Field := [⟨AttrName, Value.string "Bur"⟩, ⟨AttrType, Value.offset 1⟩] }

/-- The member `Baz` of `main.FooBar2`, declared second. -/
def fixtureBaz : Entry :=
  { Offset := 8, Tag := TagMember, Children := false,
    Field := [⟨AttrName, Value.string "Baz"⟩, ⟨AttrType, Value.offset 1⟩] }

/-- The typedef of the fixture that names `main.FooBar2`. -/
def fixtureAlias : Entry :=
  { Offset := 10, Tag := TagTypedef, Children := false,
    Field := [⟨AttrName, Value.string "main.Alias"⟩, ⟨AttrType, Value.offset 6⟩] }

/-- The function `main.barfoo` of the fixture. -/
def fixtureBarfoo : Entry :=
  { Offset := 11, Tag := TagSubprogram, Children := true,
    Field := [⟨AttrName, Value.string "main.barfoo"⟩, ⟨AttrLowpc, Value.uint64 0x10⟩,
      ⟨AttrHighpc, Value.uint64 0x20⟩] }

/-- The local `a1` of `main.barfoo`, marked external. -/
def fixtureBarfooA1 : Entry :=
  { Offset := 12, Tag := TagVariable, Children := false,
    Field := [⟨AttrName, Value.string "a1"⟩, ⟨AttrType, Value.offset 1⟩,
      ⟨AttrExternal, Value.bool true⟩] }

/-- The function `main.foobar` of the fixture. -/
def fixtureFoobar : Entry :=
  { Offset := 14, Tag := TagSubprogram, Children := true,
    Field := [⟨AttrName, Value.string "main.foobar"⟩, ⟨AttrLowpc, Value.uint64 0x20⟩,
      ⟨AttrHighpc, Value.uint64 0x30⟩] }

/-- The parameter `baz` of `main.foobar`. -/
def fixtureBaz0 : Entry :=
  { Offset := 15, Tag := TagFormalParameter, Children := false,
    Field := [⟨AttrName, Value.string "baz"⟩, ⟨AttrType, Value.offset 1⟩] }

/-- The local `a1` of `main.foobar`. -/
def fixtureA1 : Entry :=
  { Offset := 16, Tag := TagVariable, Children := false,
    Field := [⟨AttrName, Value.string "a1"⟩, ⟨AttrType, Value.offset 1⟩] }

/-- The local `a8` of `main.foobar`, of type `main.Alias`. -/
def fixtureA8 : Entry :=
  { Offset := 20, Tag := TagVariable, Children := false,
    Field := [⟨AttrName, Value.string "a8"⟩, ⟨AttrType, Value.offset 10⟩] }

/-- The package variable of the fixture. -/
def fixtureGlobal : Entry :=
  { Offset := 22, Tag := TagVariable, Children := false,
    Field := [⟨AttrName, Value.string "main.global"⟩, ⟨AttrType, Value.offset 1⟩,
      ⟨AttrExternal, Value.bool true⟩] }

/-- The range test of `SeekToFunction` on one entry: a subprogram whose low
and high program counters are both present as `uint64`, with
`lowpc <= pc && highpc >= pc`. -/
def accepts (pc : Nat) (e : Entry) : Bool :=
  decide (e.Tag = TagSubprogram) &&
    match e.Val AttrLowpc, e.Val AttrHighpc with
    | some (Value.uint64 lowpc), some (Value.uint64 highpc) =>
      decide (lowpc ≤ pc ∧ highpc ≥ pc)
    | _, _ => false

/-- The entries of a stream in stream order, the first of them at offset `o`:
what reading sequentially yields, up to the first item that does not decode. -/
def entriesFrom : Nat → List Item → List Entry
  | _, [] => []
  | _, Item.bad _ :: _ => []
  | o, Item.null :: rest =>
    { Offset := 0, Tag := 0, Children := false, Field := [] } :: entriesFrom (o + 1) rest
  | o, Item.die t c f :: rest =>
    { Offset := o, Tag := t, Children := c, Field := f } :: entriesFrom (o + 1) rest

/-- What the doc comment of `SeekToFunction` describes, read off the stream:
the first entry, in stream order from offset 0, that the range test accepts,
and the not-found error when there is none. -/
def functionAt (d : Data) (pc : Nat) : Result :=
  match (entriesFrom 0 d).find? (accepts pc) with
  | some e => (some e, none)
  | none => (none, some "unable to find function context")

/-- The error of reading the entry at offset `off`: the offset lies outside the
section, or the item there does not decode. -/
def readError (d : Data) (off : Nat) : Option String :=
  if off ≠ 0 ∧ d.length ≤ off then some "offset out of range"
  else
    match d[off]? with
    | some (Item.bad msg) => some msg
    | _ => none

/-- The cursor states reachable through the operations of `reader.go`, for any
arguments and any fuel. -/
inductive Reachable : Reader → Prop where
  | new (data : Data) : Reachable (New data)
  | seek (rd : Reader) (off : Nat) : Reachable rd → Reachable (rd.Seek off)
  | next (rd : Reader) : Reachable rd → Reachable rd.Next.2
  | skipChildren (rd rd' : Reader) (fuel : Nat) :
    Reachable rd → rd.SkipChildren fuel = some rd' → Reachable rd'
  | seekToEntry (rd : Reader) (entry : Entry) : Reachable rd → Reachable (rd.SeekToEntry entry).2
  | seekToFunction (rd rd' : Reader) (fuel pc : Nat) (res : Result) :
    Reachable rd → rd.SeekToFunction fuel pc = some (res, rd') → Reachable rd'
  | seekToType (rd rd' : Reader) (fuel : Nat) (entry : Entry) (a b : Bool) (res : Result) :
    Reachable rd → rd.SeekToType fuel entry a b = some (res, rd') → Reachable rd'
  | nextScopeVariable (rd rd' : Reader) (fuel : Nat) (res : Result) :
    Reachable rd → rd.NextScopeVariable fuel = some (res, rd') → Reachable rd'
  | nextMemberVariable (rd rd' : Reader) (fuel : Nat) (res : Result) :
    Reachable rd → rd.NextMemberVariable fuel = some (res, rd') → Reachable rd'
  | nextPackageVariable (rd rd' : Reader) (fuel : Nat) (res : Result) :
    Reachable rd → rd.NextPackageVariable fuel = some (res, rd') → Reachable rd'

/-- The offsets `SeekToType` visits when it follows the `Type` back-references
from offset `off` for at most `n` reads: the chain stops behind an offset that
cannot be read or whose entry has no `Type` offset. -/
def chainOffsets (d : Data) : Nat → Nat → List Nat
  | 0, _ => []
  | n + 1, off =>
    off ::
      match readAt d off with
      | none => []
      | some c =>
        match typeOffset c with
        | none => []
        | some o => chainOffsets d n o

/-- The chain of `Type` back-references from offset `off` ends within `n`
reads. -/
def chainEnds (d : Data) : Nat → Nat → Bool
  | 0, _ => false
  | n + 1, off =>
    match readAt d off with
    | none => true
    | some c =>
      match typeOffset c with
      | none => true
      | some o => chainEnds d n o

/-- Two typedefs that name each other: a cycle of `Type` back-references. -/
def cyclicTypes : Data :=
  [ Item.die TagTypedef false [⟨AttrName, Value.string "main.A"⟩, ⟨AttrType, Value.offset 1⟩],
    Item.die TagTypedef false [⟨AttrName, Value.string "main.B"⟩, ⟨AttrType, Value.offset 0⟩] ]

/-- The typedef `main.A` of `cyclicTypes`, at offset 0. -/
def cyclicA : Entry :=
  { Offset := 0, Tag := TagTypedef, Children := false,
    Field := [⟨AttrName, Value.string "main.A"⟩, ⟨AttrType, Value.offset 1⟩] }

/-- The typedef `main.B` of `cyclicTypes`, at offset 1. -/
def cyclicB : Entry :=
  { Offset := 1, Tag := TagTypedef, Children := false,
    Field := [⟨AttrName, Value.string "main.B"⟩, ⟨AttrType, Value.offset 0⟩] }

/-- A function declaration without program-counter bounds in front of the
definition of `main.foobar`. -/
def withDeclaration : Data :=
  [ Item.die TagCompileUnit true [],
    Item.die TagSubprogram false [⟨AttrName, Value.string "main.foobar"⟩],
    Item.die TagSubprogram false
      [⟨AttrName, Value.string "main.init"⟩, ⟨AttrLowpc, Value.uint64 0x10⟩],
    Item.die TagSubprogram false
      [⟨AttrName, Value.string "main.foobar"⟩, ⟨AttrLowpc, Value.uint64 0x20⟩,
        ⟨AttrHighpc, Value.uint64 0x30⟩],
    Item.null ]

/-- A declaration without bounds in front of two functions whose ranges
overlap: `main.barfoo` occupies `[0x10, 0x30)` and `main.foobar`
`[0x20, 0x40)`. -/
def overlappingFunctions : Data :=
  [ Item.die TagCompileUnit true [],
    Item.die TagSubprogram false [⟨AttrName, Value.string "main.foobar"⟩],
    Item.die TagSubprogram false
      [⟨AttrName, Value.string "main.barfoo"⟩, ⟨AttrLowpc, Value.uint64 0x10⟩,
        ⟨AttrHighpc, Value.uint64 0x30⟩],
    Item.die TagSubprogram false
      [⟨AttrName, Value.string "main.foobar"⟩, ⟨AttrLowpc, Value.uint64 0x20⟩,
        ⟨AttrHighpc, Value.uint64 0x40⟩],
    Item.null ]

/-- A declaration without bounds, then an item that does not decode, in front
of the definition of `main.foobar`. -/
def declarationThenMalformed : Data :=
  [ Item.die TagCompileUnit true [],
    Item.die TagSubprogram false [⟨AttrName, Value.string "main.foobar"⟩],
    Item.bad "unknown abbreviation",
    Item.die TagSubprogram false
      [⟨AttrName, Value.string "main.foobar"⟩, ⟨AttrLowpc, Value.uint64 0x20⟩,
        ⟨AttrHighpc, Value.uint64 0x30⟩],
    Item.null ]

/-- A declaration without bounds in front of two functions laid out back to
back: `main.barfoo` occupies `[0x10, 0x20)` and `main.foobar` `[0x20, 0x30)`. -/
def declarationThenAdjacent : Data :=
  [ Item.die TagCompileUnit true [],
    Item.die TagSubprogram false [⟨AttrName, Value.string "main.foobar"⟩],
    Item.die TagSubprogram false
      [⟨AttrName, Value.string "main.barfoo"⟩, ⟨AttrLowpc, Value.uint64 0x10⟩,
        ⟨AttrHighpc, Value.uint64 0x20⟩],
    Item.die TagSubprogram false
      [⟨AttrName, Value.string "main.foobar"⟩, ⟨AttrLowpc, Value.uint64 0x20⟩,
        ⟨AttrHighpc, Value.uint64 0x30⟩],
    Item.null ]

end reader

/-! ## The entry reader: one step -/

namespace dwarf

theorem next_of_err (r : Reader) (e : String) (h : r.err = some e) :
    r.Next = ((none, some e), r) := by
  simp [Reader.Next, h]

theorem next_of_eof (r : Reader) (h : r.err = none) (hoff : r.d.length ≤ r.off) :
    r.Next = ((none, none), r) := by
  have : r.d[r.off]? = none := List.getElem?_eq_none hoff
  simp [Reader.Next, h, this]

theorem next_of_null (r : Reader) (h : r.err = none) (hit : r.d[r.off]? = some Item.null) :
    r.Next = ((some { Offset := 0, Tag := 0, Children := false, Field := [] }, none),
      { r with off := r.off + 1, lastChildren := false }) := by
  simp [Reader.Next, h, hit]

theorem next_of_die (r : Reader) (t : Tag) (c : Bool) (f : List Field) (h : r.err = none)
    (hit : r.d[r.off]? = some (Item.die t c f)) :
    r.Next = ((some { Offset := r.off, Tag := t, Children := c, Field := f }, none),
      { r with
        off := r.off + 1
        lastChildren := c
        lastSibling := if c then siblingOf f else r.lastSibling }) := by
  simp [Reader.Next, h, hit]

theorem next_of_bad (r : Reader) (msg : String) (h : r.err = none)
    (hit : r.d[r.off]? = some (Item.bad msg)) :
    r.Next = ((none, some msg), { r with err := some msg }) := by
  simp [Reader.Next, h, hit]

theorem epos_of_live (r : Reader) (h : r.err = none) (hoff : r.off < r.d.length) :
    r.epos = r.off := by
  simp [Reader.epos, h, hoff]

theorem epos_of_err (r : Reader) (e : String) (h : r.err = some e) : r.epos = r.d.length := by
  simp [Reader.epos, h]

theorem epos_of_eof (r : Reader) (hoff : r.d.length ≤ r.off) : r.epos = r.d.length := by
  have : ¬ r.off < r.d.length := by omega
  simp [Reader.epos, this]

theorem epos_le (r : Reader) : r.epos ≤ r.d.length := by
  unfold Reader.epos
  split
  · omega
  · exact le_refl _

/-! ## The nesting structure of the stream -/

theorem ancestors_succ_die_true (d : Data) (p : Nat) (t : Tag) (f : List Field)
    (h : d[p]? = some (Item.die t true f)) : ancestors d (p + 1) = p :: ancestors d p := by
  simp [ancestors, h]

theorem ancestors_succ_die_false (d : Data) (p : Nat) (t : Tag) (f : List Field)
    (h : d[p]? = some (Item.die t false f)) : ancestors d (p + 1) = ancestors d p := by
  simp [ancestors, h]

theorem ancestors_succ_null (d : Data) (p : Nat)
    (h : d[p]? = some Item.null) : ancestors d (p + 1) = (ancestors d p).tail := by
  simp [ancestors, h]

/-- One item either opens an entry, closes one, or leaves the nesting alone. -/
theorem ancestors_succ_cases (d : Data) (p : Nat) :
    ancestors d (p + 1) = p :: ancestors d p ∨
    ancestors d (p + 1) = (ancestors d p).tail ∨
    ancestors d (p + 1) = ancestors d p := by
  cases h : d[p]? with
  | none => right; right; simp [ancestors, h]
  | some it =>
    cases it with
    | null => right; left; exact ancestors_succ_null d p h
    | bad msg => right; right; simp [ancestors, h]
    | die t c f =>
      cases c with
      | true => left; exact ancestors_succ_die_true d p t f h
      | false => right; right; exact ancestors_succ_die_false d p t f h

theorem ancestors_lt (d : Data) : ∀ p x, x ∈ ancestors d p → x < p := by
  intro p
  induction p with
  | zero => intro x hx; simp [ancestors] at hx
  | succ p ih =>
    intro x hx
    rcases ancestors_succ_cases d p with h | h | h <;> rw [h] at hx
    · rcases List.mem_cons.1 hx with h1 | h1
      · omega
      · have := ih x h1; omega
    · have := ih x (List.mem_of_mem_tail hx); omega
    · have := ih x hx; omega

theorem not_mem_ancestors_self (d : Data) (p : Nat) : p ∉ ancestors d p := by
  intro h
  have := ancestors_lt d p p h
  omega

theorem not_mem_ancestors_of_le (d : Data) (i j : Nat) (h : j ≤ i) : i ∉ ancestors d j := by
  intro hm
  have := ancestors_lt d j i hm
  omega

/-- While `p` is open, everything that enclosed `p` stays below it. -/
theorem suffix_of_mem_ancestors (d : Data) (p : Nat) :
    ∀ j, p ∈ ancestors d j → (p :: ancestors d p) <:+ ancestors d j := by
  intro j
  induction j with
  | zero => intro h; simp [ancestors] at h
  | succ j ih =>
    intro h
    rcases ancestors_succ_cases d j with hc | hc | hc <;> rw [hc] at h ⊢
    · rcases List.mem_cons.1 h with h1 | h1
      · subst h1; exact List.suffix_refl _
      · exact (ih h1).trans (List.suffix_cons _ _)
    · have hm := List.mem_of_mem_tail h
      have hs := ih hm
      cases hl : ancestors d j with
      | nil => rw [hl] at hm; simp at hm
      | cons x rest =>
        rw [hl] at hs h
        simp only [List.tail_cons] at h ⊢
        rcases List.suffix_cons_iff.1 hs with heq | hsuf
        · exfalso
          have h2 : ancestors d p = rest := by injection heq
          rw [← h2] at h
          exact not_mem_ancestors_self d p h
        · exact hsuf
    · exact ih h

theorem mem_ancestors_trans (d : Data) (q p j : Nat) (hq : q ∈ ancestors d p)
    (hp : p ∈ ancestors d j) : q ∈ ancestors d j := by
  have hs := suffix_of_mem_ancestors d p j hp
  exact hs.subset (List.mem_cons_of_mem _ hq)

theorem ancestors_pairwise (d : Data) : ∀ p, (ancestors d p).Pairwise (fun a b => b < a) := by
  intro p
  induction p with
  | zero => simp [ancestors]
  | succ p ih =>
    rcases ancestors_succ_cases d p with hc | hc | hc <;> rw [hc]
    · exact List.pairwise_cons.2 ⟨fun a ha => ancestors_lt d p a ha, ih⟩
    · exact ih.tail
    · exact ih

/-- The innermost enclosing entry is the largest offset on the stack. -/
theorem le_head_of_mem_ancestors (d : Data) (p h c : Nat)
    (hh : (ancestors d p).head? = some h) (hc : c ∈ ancestors d p) : c ≤ h := by
  have hp := ancestors_pairwise d p
  cases hl : ancestors d p with
  | nil => rw [hl] at hc; simp at hc
  | cons x rest =>
    rw [hl] at hh hc hp
    simp only [List.head?_cons, Option.some.injEq] at hh
    subst hh
    rcases List.mem_cons.1 hc with h1 | h1
    · omega
    · have := (List.pairwise_cons.1 hp).1 c h1; omega

/-- A position inside a child of `i` is not itself a direct child of `i`. -/
theorem not_isChild_of_inside (d : Data) (i c j : Nat) (hic : i < c)
    (hc : c ∈ ancestors d j) : ¬ isChild d i j := by
  intro h
  have := le_head_of_mem_ancestors d j i c h hc
  omega

/-- Once the children of `i` are closed, `i` never encloses a later position. -/
theorem not_mem_ancestors_after (d : Data) (i e : Nat) (hie : i < e)
    (he : i ∉ ancestors d e) : ∀ j, e ≤ j → i ∉ ancestors d j := by
  intro j hj
  induction j with
  | zero =>
    have : e = 0 := by omega
    subst this; exact he
  | succ j ih =>
    by_cases hej : e = j + 1
    · subst hej; exact he
    · have ih1 := ih (by omega)
      rcases ancestors_succ_cases d j with hc | hc | hc <;> rw [hc]
      · intro hm
        rcases List.mem_cons.1 hm with h1 | h1
        · omega
        · exact ih1 h1
      · intro hm; exact ih1 (List.mem_of_mem_tail hm)
      · exact ih1

theorem not_isChild_of_not_mem (d : Data) (i j : Nat) (h : i ∉ ancestors d j) :
    ¬ isChild d i j := by
  intro hc
  exact h (List.mem_of_mem_head? hc)

/-! ## Well-formed streams -/

theorem itemOK_of_wellFormed (d : Data) (hwf : wellFormed d = true) (q : Nat) (it : Item)
    (h : d[q]? = some it) : itemOK d q it = true := by
  have hq : q < d.length := (List.getElem?_eq_some_iff.1 h).1
  have := (List.all_eq_true.1 hwf) q (List.mem_range.2 hq)
  simpa [h] using this

theorem not_bad_of_wellFormed (d : Data) (hwf : wellFormed d = true) (q : Nat) (msg : String) :
    d[q]? ≠ some (Item.bad msg) := by
  intro h
  have := itemOK_of_wellFormed d hwf q _ h
  simp [itemOK] at this

theorem tag_ne_zero_of_wellFormed (d : Data) (hwf : wellFormed d = true) (q : Nat) (t : Tag)
    (c : Bool) (f : List Field) (h : d[q]? = some (Item.die t c f)) : t ≠ 0 := by
  have := itemOK_of_wellFormed d hwf q _ h
  simp [itemOK] at this
  exact this.1

theorem sibling_of_wellFormed (d : Data) (hwf : wellFormed d = true) (q : Nat) (t : Tag)
    (f : List Field) (h : d[q]? = some (Item.die t true f)) (hs : q < siblingOf f) :
    (∀ j, q < j → j < siblingOf f → j < d.length → q ∈ ancestors d j) ∧
      (siblingOf f < d.length → ancestors d (siblingOf f) = ancestors d q) := by
  have := itemOK_of_wellFormed d hwf q _ h
  simp only [itemOK, siblingOK, Bool.not_true, Bool.false_or, Bool.and_eq_true, Bool.or_eq_true,
    decide_eq_true_eq, List.all_eq_true, List.mem_range'_1] at this
  obtain ⟨_, hsib⟩ := this
  rcases hsib with hle | ⟨hall, hend⟩
  · omega
  · refine ⟨fun j h1 h2 h3 => hall j ⟨by omega, by omega⟩, fun hlt => ?_⟩
    rcases hend with h4 | h4
    · omega
    · exact h4

/-! ## `SkipChildren` lands behind the subtree -/

theorem lt_length_of_getElem? (d : Data) (q : Nat) (it : Item) (h : d[q]? = some it) :
    q < d.length :=
  (List.getElem?_eq_some_iff.1 h).1

theorem epos_cases (r : Reader) :
    (r.err = none ∧ r.off < r.d.length ∧ r.epos = r.off) ∨
      ((r.err ≠ none ∨ r.d.length ≤ r.off) ∧ r.epos = r.d.length) := by
  by_cases he : r.err = none
  · by_cases ho : r.off < r.d.length
    · exact Or.inl ⟨he, ho, epos_of_live r he ho⟩
    · exact Or.inr ⟨Or.inr (by omega), epos_of_eof r (by omega)⟩
  · refine Or.inr ⟨Or.inl he, ?_⟩
    simp [Reader.epos, he]

theorem skipped_of_no_children (d : Data) (r : Reader) (q : Nat) (t : Tag) (f : List Field)
    (hd : r.d = d) (he : r.err = none) (hoff : r.off = q + 1)
    (hit : d[q]? = some (Item.die t false f)) : Skipped d q r := by
  subst hd
  have hq := lt_length_of_getElem? r.d q _ hit
  refine ⟨rfl, ?_, ?_, ?_⟩
  · rcases epos_cases r with ⟨_, _, h⟩ | ⟨_, h⟩ <;> omega
  · intro j h1 h2
    exfalso
    rcases epos_cases r with ⟨_, _, h⟩ | ⟨h3, h⟩
    · omega
    · rcases h3 with h3 | h3
      · exact h3 he
      · omega
  · intro _ _
    rw [hoff]
    exact ancestors_succ_die_false r.d q t f hit

theorem skipped_of_null (d : Data) (r : Reader) (q p : Nat) (hd : r.d = d) (he : r.err = none)
    (hoff : r.off = p + 1) (hit : d[p]? = some Item.null)
    (hlev : ancestors d p = q :: ancestors d q) (hq : q < p)
    (hin : ∀ j, q < j → j < p → q ∈ ancestors d j) : Skipped d q r := by
  subst hd
  have hp := lt_length_of_getElem? r.d p _ hit
  have hj : ∀ j, q < j → j < p + 1 → q ∈ ancestors r.d j := by
    intro j h1 h2
    by_cases hj : j < p
    · exact hin j h1 hj
    · have : j = p := by omega
      subst this; rw [hlev]; exact List.mem_cons_self _ _
  refine ⟨rfl, ?_, ?_, ?_⟩
  · rcases epos_cases r with ⟨_, _, h⟩ | ⟨_, h⟩ <;> omega
  · intro j h1 h2
    apply hj j h1
    rcases epos_cases r with ⟨_, _, h⟩ | ⟨h3, h⟩
    · omega
    · rcases h3 with h3 | h3
      · exact absurd he h3
      · omega
  · intro _ _
    rw [hoff, ancestors_succ_null r.d p hit, hlev]; rfl

theorem skipLoop_spec (d : Data) (hwf : wellFormed d = true) (n : Nat)
    (hn : ∀ (r : Reader) q t f, r.d = d → r.err = none → r.off = q + 1 →
      d[q]? = some (Item.die t true f) → r.lastChildren = true → r.lastSibling = siblingOf f →
      d.length - q + 1 ≤ n → ∃ r', r.SkipChildren n = some r' ∧ Skipped d q r')
    (q : Nat) : ∀ k (r : Reader), r.d = d →
      (r.err = none → r.off < d.length → ancestors d r.off = q :: ancestors d q) →
      q < r.epos → (∀ j, q < j → j < r.epos → q ∈ ancestors d j) →
      d.length - r.epos + 1 ≤ k → d.length - r.epos + 1 ≤ n →
      ∃ r', skipLoop (Reader.SkipChildren n) k r = some r' ∧ Skipped d q r' := by
  intro k
  induction k with
  | zero => intro r _ _ _ _ hk; omega
  | succ k ih =>
    intro r hd hlev hq hin hk hnb
    have hstay : Skipped d q r → (r.err ≠ none ∨ r.d.length ≤ r.off) →
        ∃ r', skipLoop (Reader.SkipChildren n) (k + 1) r = some r' ∧ Skipped d q r' := by
      intro hsk hdead
      refine ⟨r, ?_, hsk⟩
      rcases hdead with h | h
      · obtain ⟨e, he⟩ := Option.ne_none_iff_exists'.1 h
        simp [skipLoop, next_of_err r e he]
      · cases he : r.err with
        | some e => simp [skipLoop, next_of_err r e he]
        | none => simp [skipLoop, next_of_eof r he h]
    rcases epos_cases r with ⟨he, ho, hep⟩ | ⟨hdead, hep⟩
    · -- the reader decodes the item at `r.off`
      rw [hep] at hq hin hk hnb
      rw [hd] at ho
      have hlev := hlev he ho
      obtain ⟨it, hit⟩ : ∃ it, d[r.off]? = some it := ⟨d[r.off], List.getElem?_eq_getElem ho⟩
      have hit' : r.d[r.off]? = some it := by rw [hd]; exact hit
      -- what is needed to go round the loop once more
      have hcont : ∀ r2 : Reader, Skipped d r.off r2 →
          ∃ r', skipLoop (Reader.SkipChildren n) k r2 = some r' ∧ Skipped d q r' := by
        intro r2 hs2
        obtain ⟨hd2, hlt2, hin2, hlev2⟩ := hs2
        have hle2 := epos_le r2
        rw [hd2] at hle2
        refine ih r2 hd2 ?_ (by omega) ?_ (by omega) (by omega)
        · intro h1 h2; rw [hlev2 h1 h2, hlev]
        · intro j h1 h2
          by_cases hj : j < r.off
          · exact hin j h1 hj
          · by_cases hj2 : j = r.off
            · subst hj2; rw [hlev]; exact List.mem_cons_self _ _
            · have := hin2 j (by omega) h2
              exact mem_ancestors_trans d q r.off j (by rw [hlev]; exact List.mem_cons_self _ _) this
      cases it with
      | bad msg => exact absurd hit (not_bad_of_wellFormed d hwf _ msg)
      | null =>
        have hs : Skipped d q { r with off := r.off + 1, lastChildren := false } :=
          skipped_of_null d _ q r.off hd he rfl hit hlev hq hin
        exact ⟨_, by simp [skipLoop, next_of_null r he hit'], hs⟩
      | die t c f =>
        have ht := tag_ne_zero_of_wellFormed d hwf _ t c f hit
        cases c with
        | false =>
          obtain ⟨r', h1, h2⟩ := hcont _ (skipped_of_no_children d
            { r with off := r.off + 1, lastChildren := false,
                     lastSibling := if false = true then siblingOf f else r.lastSibling }
            r.off t f hd he rfl hit)
          refine ⟨r', ?_, h2⟩
          rw [skipLoop, next_of_die r t false f he hit']
          simpa [ht] using h1
        | true =>
          obtain ⟨r2, hs1, hs2⟩ := hn
            { r with off := r.off + 1, lastChildren := true,
                     lastSibling := if true = true then siblingOf f else r.lastSibling }
            r.off t f hd he rfl hit rfl (by simp) (by omega)
          obtain ⟨r', h1, h2⟩ := hcont r2 hs2
          refine ⟨r', ?_, h2⟩
          rw [skipLoop, next_of_die r t true f he hit']
          simp only [ht, if_false, if_true]
          simp only [if_true] at hs1
          rw [hs1]
          exact h1
    · rw [hep] at hq hin
      exact hstay ⟨hd, by rw [hep]; exact hq, by rw [hep]; exact hin,
        fun h1 h2 => by
          rcases hdead with h | h
          · exact absurd h1 h
          · rw [hd] at h; omega⟩ hdead

theorem skipped_of_seek (d : Data) (hwf : wellFormed d = true) (r : Reader) (q : Nat) (t : Tag)
    (f : List Field) (hd : r.d = d) (hit : d[q]? = some (Item.die t true f))
    (hs : q + 1 ≤ siblingOf f) : Skipped d q (r.Seek (siblingOf f)) := by
  subst hd
  have hq := lt_length_of_getElem? r.d q _ hit
  obtain ⟨hin, hend⟩ := sibling_of_wellFormed r.d hwf q t f hit (by omega)
  have h0 : siblingOf f ≠ 0 := by omega
  by_cases hlt : siblingOf f < r.d.length
  · have hseek : r.Seek (siblingOf f) =
        { r with err := none, lastChildren := false, off := siblingOf f } := by
      simp [Reader.Seek, h0, hlt]
    rw [hseek]
    have hep : Reader.epos { r with err := none, lastChildren := false, off := siblingOf f } =
        siblingOf f := epos_of_live _ rfl hlt
    refine ⟨rfl, by rw [hep]; omega, ?_, fun _ _ => hend hlt⟩
    intro j h1 h2
    rw [hep] at h2
    exact hin j h1 h2 (by omega)
  · have hseek : r.Seek (siblingOf f) =
        { r with err := some "offset out of range", lastChildren := false } := by
      simp [Reader.Seek, h0, hlt]
    rw [hseek]
    have hep : Reader.epos { r with err := some "offset out of range", lastChildren := false } =
        r.d.length := epos_of_err _ _ rfl
    refine ⟨rfl, by rw [hep]; omega, ?_, fun h => by simp at h⟩
    intro j h1 h2
    rw [hep] at h2
    exact hin j h1 (by omega) h2

/-- After an entry with children, `SkipChildren` leaves the reader behind the
entry's subtree (given fuel for the rest of the section). -/
theorem skipChildren_spec (d : Data) (hwf : wellFormed d = true) :
    ∀ n (r : Reader) q t f, r.d = d → r.err = none → r.off = q + 1 →
      d[q]? = some (Item.die t true f) → r.lastChildren = true → r.lastSibling = siblingOf f →
      d.length - q + 1 ≤ n → ∃ r', r.SkipChildren n = some r' ∧ Skipped d q r' := by
  intro n
  induction n with
  | zero => intro r q t f _ _ _ _ _ _ hn; omega
  | succ n ih =>
    intro r q t f hd he hoff hit hlc hls hn
    have hq := lt_length_of_getElem? d q _ hit
    by_cases hs : r.lastSibling ≥ r.off
    · refine ⟨r.Seek r.lastSibling, by simp [Reader.SkipChildren, he, hlc, hs], ?_⟩
      rw [hls]
      exact skipped_of_seek d hwf r q t f hd hit (by omega)
    · have hle := epos_le r
      rw [hd] at hle
      have hep : q < r.epos ∧ r.epos ≤ q + 1 ∨ r.epos = d.length ∧ d.length = q + 1 := by
        rcases epos_cases r with ⟨_, _, h⟩ | ⟨h3, h⟩
        · left; omega
        · rcases h3 with h3 | h3
          · exact absurd he h3
          · right; rw [hd] at h h3; omega
      obtain ⟨r', h1, h2⟩ := skipLoop_spec d hwf n ih q n r hd
        (fun _ _ => by rw [hoff]; exact ancestors_succ_die_true d q t f hit)
        (by omega) (fun j h1 h2 => by omega) (by omega) (by omega)
      exact ⟨r', by simpa [Reader.SkipChildren, he, hlc, hs] using h1, h2⟩

/-- Reading the entry at `q` and skipping its children (a no-op when it has
none) leaves the reader behind the entry's subtree. -/
theorem skip_after_next (d : Data) (hwf : wellFormed d = true) (n : Nat) (r : Reader) (q : Nat)
    (t : Tag) (c : Bool) (f : List Field) (hd : r.d = d) (he : r.err = none) (hoff : r.off = q)
    (hit : d[q]? = some (Item.die t c f)) (hn : d.length - q + 1 ≤ n) :
    ∃ r1 r', r.Next = ((some { Offset := q, Tag := t, Children := c, Field := f }, none), r1) ∧
      r1.d = d ∧ r1.err = none ∧ r1.off = q + 1 ∧
      Reader.SkipChildren n r1 = some r' ∧ Skipped d q r' := by
  subst hoff
  have hnext := next_of_die r t c f he (by rw [hd]; exact hit)
  cases c with
  | true =>
    obtain ⟨r', h1, h2⟩ := skipChildren_spec d hwf n
      { r with off := r.off + 1, lastChildren := true,
               lastSibling := if true = true then siblingOf f else r.lastSibling }
      r.off t f hd he rfl hit rfl (by simp) hn
    exact ⟨r.Next.2, r', by rw [hnext], by rw [hnext]; exact hd, by rw [hnext]; exact he,
      by rw [hnext], by rw [hnext]; exact h1, h2⟩
  | false =>
    obtain ⟨m, rfl⟩ : ∃ m, n = m + 1 := ⟨n - 1, by omega⟩
    refine ⟨r.Next.2, r.Next.2, by rw [hnext], by rw [hnext]; exact hd, by rw [hnext]; exact he,
      by rw [hnext], by rw [hnext]; simp [Reader.SkipChildren], ?_⟩
    rw [hnext]
    exact skipped_of_no_children d _ r.off t f hd he rfl hit

end dwarf

/-! ## Scans as filters over the rest of the stream -/

namespace reader

open dwarf

theorem filterMap_range_skip (f : Nat → Option Entry) (p e len : Nat) (hp : p ≤ e)
    (he : e ≤ len) (hnone : ∀ j, p ≤ j → j < e → f j = none) :
    (List.range' p (len - p)).filterMap f = (List.range' e (len - e)).filterMap f := by
  have h1 : List.range' p (len - p) = List.range' p (e - p) ++ List.range' e (len - e) := by
    have := List.range'_append_1 p (e - p) (len - e)
    rw [show p + (e - p) = e by omega, show len - e + (e - p) = len - p by omega] at this
    exact this.symm
  rw [h1, List.filterMap_append]
  have h2 : (List.range' p (e - p)).filterMap f = [] := by
    rw [List.filterMap_eq_nil_iff]
    intro a ha
    rw [List.mem_range'_1] at ha
    exact hnone a ha.1 (by omega)
  rw [h2, List.nil_append]

theorem filterMap_range_cons (f : Nat → Option Entry) (p len : Nat) (hp : p < len) :
    (List.range' p (len - p)).filterMap f =
      (f p).toList ++ (List.range' (p + 1) (len - (p + 1))).filterMap f := by
  have h1 : len - p = (len - (p + 1)) + 1 := by omega
  rw [h1, List.range'_succ, List.filterMap_cons]
  cases f p <;> simp

theorem remaining_eq_nil_of_eof (f : Nat → Option Entry) (r : dwarf.Reader)
    (h : r.epos = r.d.length) : remaining f r = [] := by
  simp [remaining, h]

/-- Passing the subtree of a non-selected entry does not change what remains. -/
theorem remaining_of_skipped (f : Nat → Option Entry) (r r2 : dwarf.Reader) (p : Nat)
    (hl : r.err = none) (ho : r.off < r.d.length) (hp : r.off = p) (hd : r2.d = r.d)
    (hlt : p < r2.epos) (hnone : ∀ j, p < j → j < r2.epos → f j = none) :
    remaining f r = (f p).toList ++ remaining f r2 := by
  have hep := epos_of_live r hl ho
  have hle := epos_le r2
  unfold remaining
  rw [hep, hd, hp, filterMap_range_cons f p r.d.length (by omega)]
  congr 1
  rw [hd] at hle
  exact filterMap_range_skip f (p + 1) r2.epos r.d.length (by omega) hle
    (fun j h1 h2 => hnone j (by omega) h2)

theorem collect_spec (d : Data) (next : Reader → Option (Result × Reader))
    (todo : dwarf.Reader → List Entry) (Inv : dwarf.Reader → Prop)
    (hd : ∀ r, Inv r → r.d = d)
    (hcall : ∀ rd : Reader, Inv rd.dr → ∃ res rd', next rd = some (res, rd') ∧
      (∀ e, res.1 = some e →
        todo rd.dr = e :: todo rd'.dr ∧ rd.dr.epos < rd'.dr.epos ∧ Inv rd'.dr) ∧
      (res.1 = none → todo rd.dr = [])) :
    ∀ n (rd : Reader), Inv rd.dr → d.length - rd.dr.epos + 1 ≤ n →
      ∃ rd', collect next n rd = some (todo rd.dr, rd') := by
  intro n
  induction n with
  | zero => intro rd _ h; omega
  | succ n ih =>
    intro rd hinv hn
    obtain ⟨res, rd1, hnext, hsome, hnone⟩ := hcall rd hinv
    obtain ⟨re, rerr⟩ := res
    cases re with
    | none =>
      refine ⟨rd1, ?_⟩
      rw [hnone rfl]
      simp [collect, hnext]
    | some e =>
      obtain ⟨h1, h2, h3⟩ := hsome e rfl
      have hle := epos_le rd1.dr
      rw [hd _ h3] at hle
      obtain ⟨rd2, h4⟩ := ih rd1 h3 (by omega)
      refine ⟨rd2, ?_⟩
      rw [h1]
      simp [collect, hnext, h4]

theorem next_eq (rd : Reader) (res : Result) (r1 : dwarf.Reader)
    (h : rd.dr.Next = (res, r1)) : rd.Next = (res, { rd with dr := r1 }) := by
  simp [Reader.Next, h]

theorem skipChildren_eq (rd : Reader) (fuel : Nat) (r2 : dwarf.Reader)
    (h : rd.dr.SkipChildren fuel = some r2) :
    rd.SkipChildren fuel = some { rd with dr := r2 } := by
  simp [Reader.SkipChildren, h]

theorem next_dead (rd : Reader) (h : rd.dr.err ≠ none ∨ rd.dr.d.length ≤ rd.dr.off) :
    ∃ err, rd.Next = ((none, err), rd) := by
  rcases h with h | h
  · obtain ⟨e, he⟩ := Option.ne_none_iff_exists'.1 h
    exact ⟨some e, next_eq rd _ _ (next_of_err rd.dr e he)⟩
  · cases he : rd.dr.err with
    | some e => exact ⟨some e, next_eq rd _ _ (next_of_err rd.dr e he)⟩
    | none => exact ⟨none, next_eq rd _ _ (next_of_eof rd.dr he h)⟩

theorem childAt_of_not_isChild (d : Data) (i : Nat) (want : Tag → Bool) (j : Nat)
    (h : ¬ isChild d i j) : childAt d i want j = none := by
  unfold childAt
  split
  · simp [h]
  · rfl

/-- One call of a level scan: it returns the next direct child wanted, having
passed only entries that are not, or `(nil, nil)` when no such child is left. -/
theorem nextAtLevel_spec (d : Data) (hwf : wellFormed d = true) (i : Nat) (want : Tag → Bool) :
    ∀ fuel (rd : Reader), AtLevel d i rd.dr → d.length - rd.dr.epos + 2 ≤ fuel →
      ∃ res rd', Reader.nextAtLevel want fuel rd = some (res, rd') ∧
        rd'.depth = rd.depth ∧ res.2 = none ∧ rd'.dr.d = d ∧
        (∀ e, res.1 = some e →
          remaining (childAt d i want) rd.dr = e :: remaining (childAt d i want) rd'.dr ∧
          rd.dr.epos < rd'.dr.epos ∧ AtLevel d i rd'.dr) ∧
        (res.1 = none → remaining (childAt d i want) rd.dr = []) := by
  intro fuel
  induction fuel with
  | zero => intro rd _ h; omega
  | succ fuel ih =>
    intro rd hlev hfuel
    obtain ⟨hd, hanc⟩ := hlev
    rcases epos_cases rd.dr with ⟨he, ho, hep⟩ | ⟨hdead, hep⟩
    · rw [hep] at hfuel
      have ho' : rd.dr.off < d.length := by rw [← hd]; exact ho
      have hanc := hanc he ho'
      have hip : i < rd.dr.off := ancestors_lt d _ i (by rw [hanc]; exact List.mem_cons_self _ _)
      obtain ⟨it, hit⟩ : ∃ it, d[rd.dr.off]? = some it :=
        ⟨d[rd.dr.off], List.getElem?_eq_getElem ho'⟩
      have hit' : rd.dr.d[rd.dr.off]? = some it := by rw [hd]; exact hit
      cases it with
      | bad msg => exact absurd hit (not_bad_of_wellFormed d hwf _ msg)
      | null =>
        have hnext := next_eq rd _ _ (next_of_null rd.dr he hit')
        obtain ⟨m, rfl⟩ : ∃ m, fuel = m + 1 := ⟨fuel - 1, by omega⟩
        refine ⟨(none, none),
          { rd with dr := { rd.dr with off := rd.dr.off + 1, lastChildren := false } },
          ?_, rfl, rfl, hd, fun e h => by simp at h, fun _ => ?_⟩
        · rw [Reader.nextAtLevel, hnext]
          simp [Reader.SkipChildren, dwarf.Reader.SkipChildren]
        · unfold remaining
          rw [List.filterMap_eq_nil_iff]
          intro j hj
          rw [List.mem_range'_1, hep] at hj
          by_cases hjp : j = rd.dr.off
          · subst hjp; simp [childAt, hit]
          · apply childAt_of_not_isChild
            apply not_isChild_of_not_mem
            apply not_mem_ancestors_after d i (rd.dr.off + 1) (by omega) _ j (by omega)
            rw [ancestors_succ_null d _ hit, hanc]
            exact not_mem_ancestors_self d i
      | die t c f =>
        have ht := tag_ne_zero_of_wellFormed d hwf _ t c f hit
        obtain ⟨r1, r2, hnx, hd1, he1, ho1, hsk, hs2⟩ :=
          skip_after_next d hwf fuel rd.dr rd.dr.off t c f hd he rfl hit (by omega)
        obtain ⟨hd2, hlt2, hin2, hlev2⟩ := hs2
        have hnext := next_eq rd _ _ hnx
        have hskip := skipChildren_eq { rd with dr := r1 } fuel r2 hsk
        have hrem : remaining (childAt d i want) rd.dr =
            (childAt d i want rd.dr.off).toList ++ remaining (childAt d i want) r2 :=
          remaining_of_skipped _ rd.dr r2 rd.dr.off he ho rfl (by rw [hd2, hd]) hlt2
            (fun j h1 h2 => childAt_of_not_isChild d i want j
              (not_isChild_of_inside d i rd.dr.off j hip (hin2 j h1 h2)))
        have hlev' : AtLevel d i r2 := ⟨hd2, fun h1 h2 => by rw [hlev2 h1 h2, hanc]⟩
        have hunf : Reader.nextAtLevel want (fuel + 1) rd =
            if want t = true then
              some ((some { Offset := rd.dr.off, Tag := t, Children := c, Field := f }, none),
                { rd with dr := r2 })
            else Reader.nextAtLevel want fuel { rd with dr := r2 } := by
          rw [Reader.nextAtLevel, hnext]
          simp only [Option.isSome_none, Bool.false_eq_true, if_false]
          rw [hskip]
          simp [ht]
        by_cases hw : want t = true
        · refine ⟨(some { Offset := rd.dr.off, Tag := t, Children := c, Field := f }, none),
            { rd with dr := r2 }, by rw [hunf, if_pos hw], rfl, rfl, hd2, ?_,
            fun h => by simp at h⟩
          intro e hres
          simp only [Option.some.injEq] at hres
          subst hres
          refine ⟨?_, by rw [hep]; exact hlt2, hlev'⟩
          rw [hrem]
          have : childAt d i want rd.dr.off =
              some { Offset := rd.dr.off, Tag := t, Children := c, Field := f } := by
            have hc : isChild d i rd.dr.off := by unfold isChild; rw [hanc]; rfl
            simp [childAt, hit, hc, hw]
          rw [this]; rfl
        · have hle2 := epos_le r2
          rw [hd2] at hle2
          obtain ⟨res, rd', h1, h2, h3, h4, h5, h6⟩ := ih { rd with dr := r2 } hlev' (by
            show d.length - r2.epos + 2 ≤ fuel
            omega)
          have hnone : childAt d i want rd.dr.off = none := by
            simp [childAt, hit, hw]
          rw [hnone] at hrem
          simp only [Option.toList_none, List.nil_append] at hrem
          refine ⟨res, rd', by rw [hunf, if_neg hw]; exact h1, h2, h3, h4, ?_, ?_⟩
          · intro e hres
            obtain ⟨h7, h8, h9⟩ := h5 e hres
            refine ⟨by rw [hrem]; exact h7, ?_, h9⟩
            have : r2.epos < rd'.dr.epos := h8
            omega
          · intro hres
            rw [hrem]; exact h6 hres
    · obtain ⟨err, hnext⟩ := next_dead rd hdead
      refine ⟨(none, none), rd, ?_, rfl, rfl, hd, fun e h => by simp at h,
        fun _ => remaining_eq_nil_of_eof _ _ hep⟩
      rw [Reader.nextAtLevel, hnext]

theorem nextScopeVariable_eq : ∀ fuel (rd : Reader),
    Reader.NextScopeVariable fuel rd = Reader.nextAtLevel isScopeTag fuel rd := by
  intro fuel
  induction fuel with
  | zero => intro rd; rfl
  | succ fuel ih =>
    intro rd
    rw [Reader.NextScopeVariable, Reader.nextAtLevel]
    simp only [ih, isScopeTag, decide_eq_true_eq]

theorem nextMemberVariable_eq : ∀ fuel (rd : Reader),
    Reader.NextMemberVariable fuel rd = Reader.nextAtLevel isMemberTag fuel rd := by
  intro fuel
  induction fuel with
  | zero => intro rd; rfl
  | succ fuel ih =>
    intro rd
    rw [Reader.NextMemberVariable, Reader.nextAtLevel]
    simp only [ih, isMemberTag, decide_eq_true_eq]

/-- Calling a level scan until it returns no entry yields the wanted direct
children that remain, in stream order. -/
theorem collect_level (d : Data) (hwf : wellFormed d = true) (i : Nat) (want : Tag → Bool)
    (n : Nat) (rd : Reader) (hlev : AtLevel d i rd.dr) (hn : d.length + 2 ≤ n) :
    ∃ rd', collect (Reader.nextAtLevel want n) n rd =
      some (remaining (childAt d i want) rd.dr, rd') := by
  refine collect_spec d _ (remaining (childAt d i want)) (AtLevel d i) (fun r h => h.1) ?_
    n rd hlev (by omega)
  intro rd1 h1
  obtain ⟨res, rd', h2, _, _, _, h3, h4⟩ := nextAtLevel_spec d hwf i want n rd1 h1 (by omega)
  exact ⟨res, rd', h2, h3, h4⟩

theorem remaining_eq_childrenOf (d : Data) (i : Nat) (want : Tag → Bool) (r : dwarf.Reader)
    (hd : r.d = d) (he : r.epos ≤ i + 1) :
    remaining (childAt d i want) r = childrenOf d i want := by
  have hle := epos_le r
  unfold remaining childrenOf
  rw [List.range_eq_range', hd]
  rw [hd] at hle
  have := filterMap_range_skip (childAt d i want) 0 r.epos d.length (by omega) hle
    (fun j _ h2 => childAt_of_not_isChild d i want j
      (not_isChild_of_not_mem d i j (not_mem_ancestors_of_le d i j (by omega))))
  simpa using this.symm

theorem mem_childrenOf (d : Data) (i : Nat) (want : Tag → Bool) (e : Entry)
    (h : e ∈ childrenOf d i want) :
    isChild d i e.Offset ∧ want e.Tag = true ∧ readAt d e.Offset = some e := by
  unfold childrenOf at h
  rw [List.mem_filterMap] at h
  obtain ⟨j, _, hj⟩ := h
  unfold childAt at hj
  split at hj
  · rename_i t c f hit
    split at hj
    · rename_i hc
      simp only [Option.some.injEq] at hj
      subst hj
      exact ⟨hc.1, hc.2, by simp [readAt, hit]⟩
    · simp at hj
  · simp at hj

/-- An entry just read that has children: the reader stands among them. -/
theorem atLevel_of_justRead (d : Data) (e : Entry) (r : dwarf.Reader) (h : JustRead d e r)
    (hc : e.Children = true) : AtLevel d e.Offset r ∧ r.epos ≤ e.Offset + 1 := by
  obtain ⟨hd, he, p, hp, hread⟩ := h
  unfold readAt at hread
  split at hread
  · rename_i t c f hit
    simp only [Option.some.injEq] at hread
    subst hread
    simp only at hc
    subst hc
    refine ⟨⟨hd, fun _ _ => ?_⟩, ?_⟩
    · show ancestors d r.off = p :: ancestors d p
      rw [hp]; exact ancestors_succ_die_true d p t f hit
    · show r.epos ≤ p + 1
      rcases epos_cases r with ⟨_, _, h⟩ | ⟨h3, h⟩
      · omega
      · rcases h3 with h3 | h3
        · exact absurd he h3
        · omega
  · simp only [Option.some.injEq] at hread
    subst hread
    simp at hc
  · simp at hread

/-- After an entry with children was returned, calling a level scan until it
returns no entry yields exactly the wanted direct children of that entry. -/
theorem collect_children (d : Data) (hwf : wellFormed d = true) (want : Tag → Bool)
    (e : Entry) (rd : Reader) (h : JustRead d e rd.dr) (hc : e.Children = true) (n : Nat)
    (hn : d.length + 2 ≤ n) :
    ∃ rd', collect (Reader.nextAtLevel want n) n rd =
      some (childrenOf d e.Offset want, rd') := by
  obtain ⟨hlev, hep⟩ := atLevel_of_justRead d e rd.dr h hc
  obtain ⟨rd', h1⟩ := collect_level d hwf e.Offset want n rd hlev hn
  exact ⟨rd', by rw [h1, remaining_eq_childrenOf d e.Offset want rd.dr h.1 hep]⟩

/-- What a successful `Next` tells about the entry and the reader. -/
theorem justRead_of_next (rd rd' : Reader) (e : Entry) (err : Option String)
    (h : rd.Next = ((some e, err), rd')) :
    err = none ∧ JustRead rd.dr.d e rd'.dr ∧ rd'.depth = rd.depth := by
  unfold Reader.Next dwarf.Reader.Next at h
  cases he : rd.dr.err with
  | some x => simp [he] at h
  | none =>
    cases hit : rd.dr.d[rd.dr.off]? with
    | none => simp [he, hit] at h
    | some it =>
      cases it with
      | bad msg => simp [he, hit] at h
      | null =>
        simp only [he, hit, Prod.mk.injEq, Option.some.injEq] at h
        obtain ⟨⟨h1, h2⟩, h3⟩ := h
        subst h3 h1
        exact ⟨h2.symm, ⟨rfl, rfl, rd.dr.off, rfl, by simp [readAt, hit]⟩, rfl⟩
      | die t c f =>
        simp only [he, hit, Prod.mk.injEq, Option.some.injEq] at h
        obtain ⟨⟨h1, h2⟩, h3⟩ := h
        subst h3 h1
        exact ⟨h2.symm, ⟨rfl, rfl, rd.dr.off, rfl, by simp [readAt, hit]⟩, rfl⟩

theorem next_d (rd : Reader) : rd.Next.2.dr.d = rd.dr.d := by
  unfold Reader.Next dwarf.Reader.Next
  cases rd.dr.err with
  | some x => rfl
  | none =>
    simp only
    cases rd.dr.d[rd.dr.off]? with
    | none => rfl
    | some it => cases it <;> rfl

theorem seek_d (rd : Reader) (off : Nat) : (rd.Seek off).dr.d = rd.dr.d := by
  unfold Reader.Seek dwarf.Reader.Seek
  split
  · rfl
  · split <;> rfl

/-- An entry returned by the loop of `SeekToFunction` was just read, is a
subprogram, and carries both bounds with `low ≤ pc ≤ high`. -/
theorem seekToFunctionLoop_some (pc : Nat) : ∀ fuel (rd rd' : Reader) (e : Entry)
    (err : Option String),
    Reader.seekToFunctionLoop pc fuel rd = some ((some e, err), rd') →
      err = none ∧ JustRead rd.dr.d e rd'.dr ∧ rd'.depth = rd.depth ∧ e.Tag = TagSubprogram ∧
        ∃ lo hi, e.Val AttrLowpc = some (Value.uint64 lo) ∧
          e.Val AttrHighpc = some (Value.uint64 hi) ∧ lo ≤ pc ∧ pc ≤ hi := by
  intro fuel
  induction fuel with
  | zero => intro rd rd' e err h; simp [Reader.seekToFunctionLoop] at h
  | succ fuel ih =>
    intro rd rd' e err h
    rw [Reader.seekToFunctionLoop] at h
    cases hn : rd.Next with
    | mk res rd1 =>
      obtain ⟨re, rerr⟩ := res
      have hd1 : rd1.dr.d = rd.dr.d := by have := next_d rd; rw [hn] at this; exact this
      cases re with
      | none => simp [hn] at h
      | some entry =>
        obtain ⟨h1, h2, h3⟩ := justRead_of_next rd rd1 entry rerr hn
        subst h1
        have hrec : Reader.seekToFunctionLoop pc fuel rd1 = some ((some e, err), rd') →
            err = none ∧ JustRead rd.dr.d e rd'.dr ∧ rd'.depth = rd.depth ∧
              e.Tag = TagSubprogram ∧
              ∃ lo hi, e.Val AttrLowpc = some (Value.uint64 lo) ∧
                e.Val AttrHighpc = some (Value.uint64 hi) ∧ lo ≤ pc ∧ pc ≤ hi := by
          intro h'
          have := ih rd1 rd' e err h'
          rw [hd1, h3] at this
          exact this
        simp only [hn, Option.isSome_none, Bool.false_eq_true, if_false] at h
        by_cases ht : entry.Tag = TagSubprogram
        · simp only [ht, ne_eq, not_true_eq_false, if_false] at h
          split at h
          · rename_i lo hlo
            split at h
            · rename_i hi hhi
              split at h
              · rename_i hcond
                simp only [Option.some.injEq, Prod.mk.injEq] at h
                obtain ⟨⟨h4, h5⟩, h6⟩ := h
                subst h4 h6
                exact ⟨h5.symm, h2, h3, ht, lo, hi, hlo, hhi, hcond.1, hcond.2⟩
              · exact hrec h
            · exact hrec h
          · exact hrec h
        · simp only [ne_eq, ht, not_false_eq_true, if_true] at h
          exact hrec h

/-- An entry returned by the loop of `SeekToType` was just read. -/
theorem seekToTypeLoop_some (a b : Bool) : ∀ fuel (rd rd' : Reader) (e : Entry)
    (err : Option String),
    Reader.seekToTypeLoop a b fuel rd = some ((some e, err), rd') →
      err = none ∧ JustRead rd.dr.d e rd'.dr := by
  intro fuel
  induction fuel with
  | zero => intro rd rd' e err h; simp [Reader.seekToTypeLoop] at h
  | succ fuel ih =>
    intro rd rd' e err h
    rw [Reader.seekToTypeLoop] at h
    cases hn : rd.Next with
    | mk res rd1 =>
      obtain ⟨re, rerr⟩ := res
      have hd1 : rd1.dr.d = rd.dr.d := by have := next_d rd; rw [hn] at this; exact this
      cases re with
      | none => simp [hn] at h
      | some entry =>
        obtain ⟨h1, h2, h3⟩ := justRead_of_next rd rd1 entry rerr hn
        subst h1
        have hret : some ((some entry, (none : Option String)), rd1) = some ((some e, err), rd') →
            err = none ∧ JustRead rd.dr.d e rd'.dr := by
          intro h'
          simp only [Option.some.injEq, Prod.mk.injEq] at h'
          obtain ⟨⟨h4, h5⟩, h6⟩ := h'
          subst h4 h6
          exact ⟨h5.symm, h2⟩
        simp only [hn, Option.isSome_none, Bool.false_eq_true, if_false] at h
        split at h
        · exact hret h
        · split at h
          · exact hret h
          · split at h
            · rename_i off hoff
              have := ih _ rd' e err h
              rw [seek_d, hd1] at this
              exact this
            · exact hret h

/-! ## `NextPackageVariable` -/

theorem epos_step (r : dwarf.Reader) (p : Nat) (he : r.err = none) (hoff : r.off = p + 1)
    (hp : p < r.d.length) : p < r.epos ∧ r.epos ≤ p + 1 := by
  rcases epos_cases r with ⟨_, _, h⟩ | ⟨h3, h⟩
  · omega
  · rcases h3 with h3 | h3
    · exact absurd he h3
    · omega

theorem not_inSubprogram_succ (d : Data) (p : Nat) (h : ¬ inSubprogram d p)
    (hp : ∀ t f, d[p]? = some (Item.die t true f) → t ≠ TagSubprogram) :
    ¬ inSubprogram d (p + 1) := by
  rintro ⟨a, ha, hta⟩
  cases hit : d[p]? with
  | none =>
    have : ancestors d (p + 1) = ancestors d p := by simp [ancestors, hit]
    rw [this] at ha
    exact h ⟨a, ha, hta⟩
  | some it =>
    cases it with
    | bad msg =>
      have : ancestors d (p + 1) = ancestors d p := by simp [ancestors, hit]
      rw [this] at ha
      exact h ⟨a, ha, hta⟩
    | null =>
      rw [ancestors_succ_null d p hit] at ha
      exact h ⟨a, List.mem_of_mem_tail ha, hta⟩
    | die t c f =>
      cases c with
      | false =>
        rw [ancestors_succ_die_false d p t f hit] at ha
        exact h ⟨a, ha, hta⟩
      | true =>
        rw [ancestors_succ_die_true d p t f hit] at ha
        rcases List.mem_cons.1 ha with h1 | h1
        · subst h1
          apply hp t f hit
          simpa [tagAt, hit] using hta
        · exact h ⟨a, h1, hta⟩

theorem packageVarAt_of_inSubprogram (d : Data) (j : Nat) (h : inSubprogram d j) :
    packageVarAt d j = none := by
  unfold packageVarAt
  split
  · simp [h]
  · rfl

/-- One call of `NextPackageVariable` from outside every subprogram: it returns
the next package variable, having passed only entries that are none, or
`(nil, nil)` when no package variable is left. -/
theorem nextPackageVariable_spec (d : Data) (hwf : wellFormed d = true) :
    ∀ fuel (rd : Reader), Outside d rd.dr → d.length - rd.dr.epos + 2 ≤ fuel →
      ∃ res rd', Reader.NextPackageVariable fuel rd = some (res, rd') ∧
        rd'.depth = rd.depth ∧ res.2 = none ∧ rd'.dr.d = d ∧
        (∀ e, res.1 = some e →
          remaining (packageVarAt d) rd.dr = e :: remaining (packageVarAt d) rd'.dr ∧
          rd.dr.epos < rd'.dr.epos ∧ Outside d rd'.dr) ∧
        (res.1 = none → remaining (packageVarAt d) rd.dr = []) := by
  intro fuel
  induction fuel with
  | zero => intro rd _ h; omega
  | succ fuel ih =>
    intro rd hout hfuel
    obtain ⟨hd, hns⟩ := hout
    rcases epos_cases rd.dr with ⟨he, ho, hep⟩ | ⟨hdead, hep⟩
    · rw [hep] at hfuel
      have ho' : rd.dr.off < d.length := by rw [← hd]; exact ho
      have hns := hns he ho'
      obtain ⟨it, hit⟩ : ∃ it, d[rd.dr.off]? = some it :=
        ⟨d[rd.dr.off], List.getElem?_eq_getElem ho'⟩
      have hit' : rd.dr.d[rd.dr.off]? = some it := by rw [hd]; exact hit
      -- going round the loop once more from a reader behind a non-selected entry
      have hcont : ∀ r2 : dwarf.Reader, r2.d = d → rd.dr.off < r2.epos →
          (∀ j, rd.dr.off < j → j < r2.epos → packageVarAt d j = none) →
          packageVarAt d rd.dr.off = none → Outside d r2 →
          ∃ res rd', Reader.NextPackageVariable fuel { rd with dr := r2 } = some (res, rd') ∧
            rd'.depth = rd.depth ∧ res.2 = none ∧ rd'.dr.d = d ∧
            (∀ e, res.1 = some e →
              remaining (packageVarAt d) rd.dr = e :: remaining (packageVarAt d) rd'.dr ∧
              rd.dr.epos < rd'.dr.epos ∧ Outside d rd'.dr) ∧
            (res.1 = none → remaining (packageVarAt d) rd.dr = []) := by
        intro r2 hd2 hlt2 hnone hp hout2
        have hle2 := epos_le r2
        rw [hd2] at hle2
        have hrem := remaining_of_skipped (packageVarAt d) rd.dr r2 rd.dr.off he ho rfl
          (by rw [hd2, hd]) hlt2 hnone
        rw [hp] at hrem
        simp only [Option.toList_none, List.nil_append] at hrem
        obtain ⟨res, rd', h1, h2, h3, h4, h5, h6⟩ := ih { rd with dr := r2 } hout2 (by
          show d.length - r2.epos + 2 ≤ fuel
          omega)
        refine ⟨res, rd', h1, h2, h3, h4, ?_, fun hres => by rw [hrem]; exact h6 hres⟩
        intro e hres
        obtain ⟨h7, h8, h9⟩ := h5 e hres
        refine ⟨by rw [hrem]; exact h7, ?_, h9⟩
        have : r2.epos < rd'.dr.epos := h8
        omega
      -- the same, for the reader one step further
      have hstep : ∀ r1 : dwarf.Reader, r1.d = d → r1.err = none → r1.off = rd.dr.off + 1 →
          packageVarAt d rd.dr.off = none →
          (∀ t f, d[rd.dr.off]? = some (Item.die t true f) → t ≠ TagSubprogram) →
          ∃ res rd', Reader.NextPackageVariable fuel { rd with dr := r1 } = some (res, rd') ∧
            rd'.depth = rd.depth ∧ res.2 = none ∧ rd'.dr.d = d ∧
            (∀ e, res.1 = some e →
              remaining (packageVarAt d) rd.dr = e :: remaining (packageVarAt d) rd'.dr ∧
              rd.dr.epos < rd'.dr.epos ∧ Outside d rd'.dr) ∧
            (res.1 = none → remaining (packageVarAt d) rd.dr = []) := by
        intro r1 hd1 he1 ho1 hp htag
        obtain ⟨h1, h2⟩ := epos_step r1 rd.dr.off he1 ho1 (by rw [hd1]; exact ho')
        exact hcont r1 hd1 h1 (fun j h3 h4 => by omega) hp
          ⟨hd1, fun _ _ => by rw [ho1]; exact not_inSubprogram_succ d _ hns htag⟩
      cases it with
      | bad msg => exact absurd hit (not_bad_of_wellFormed d hwf _ msg)
      | null =>
        have hnext := next_eq rd _ _ (next_of_null rd.dr he hit')
        obtain ⟨res, rd', h1, h2⟩ := hstep
          { rd.dr with off := rd.dr.off + 1, lastChildren := false } hd he rfl
          (by simp [packageVarAt, hit]) (fun t f h => by rw [hit] at h; simp at h)
        refine ⟨res, rd', ?_, h2⟩
        rw [Reader.NextPackageVariable, hnext]
        simpa [TagVariable, TagSubprogram] using h1
      | die t c f =>
        obtain ⟨r1, r2, hnx, hd1, he1, ho1, hsk, hs2⟩ :=
          skip_after_next d hwf fuel rd.dr rd.dr.off t c f hd he rfl hit (by omega)
        have hnext := next_eq rd _ _ hnx
        have htag : t ≠ TagSubprogram →
            ∀ t' f', d[rd.dr.off]? = some (Item.die t' true f') → t' ≠ TagSubprogram := by
          intro hs t' f' h'
          rw [hit] at h'
          simp only [Option.some.injEq, Item.die.injEq] at h'
          rw [← h'.1]; exact hs
        by_cases hv : t = TagVariable ∧ Entry.Val
            { Offset := rd.dr.off, Tag := t, Children := c, Field := f } AttrExternal =
              some (Value.bool true)
        · -- a package variable: returned
          have hp : packageVarAt d rd.dr.off =
              some { Offset := rd.dr.off, Tag := t, Children := c, Field := f } := by
            unfold packageVarAt
            rw [hit]
            simp only
            rw [if_pos ⟨hv.1, hv.2, hns⟩]
          obtain ⟨h1, h2⟩ := epos_step r1 rd.dr.off he1 ho1 (by rw [hd1]; exact ho')
          refine ⟨(some { Offset := rd.dr.off, Tag := t, Children := c, Field := f }, none),
            { rd with dr := r1 }, ?_, rfl, rfl, hd1, ?_, fun h => by simp at h⟩
          · rw [Reader.NextPackageVariable, hnext]
            simp only [Option.isSome_none, Bool.false_eq_true, if_false]
            rw [if_pos hv]
          · intro e hres
            simp only [Option.some.injEq] at hres
            subst hres
            refine ⟨?_, by rw [hep]; exact h1, hd1, fun _ _ => ?_⟩
            · have := remaining_of_skipped (packageVarAt d) rd.dr r1
                rd.dr.off he ho rfl (by rw [hd1, hd]) h1 (fun j h3 h4 => by omega)
              rw [this, hp]; rfl
            · show ¬ inSubprogram d r1.off
              rw [ho1]
              apply not_inSubprogram_succ d _ hns
              apply htag
              rw [hv.1]
              decide
        · have hp : packageVarAt d rd.dr.off = none := by
            unfold packageVarAt
            rw [hit]
            simp only
            rw [if_neg]
            intro hcon
            exact hv ⟨hcon.1, hcon.2.1⟩
          by_cases hs : t = TagSubprogram
          · -- a subprogram: its children are skipped
            obtain ⟨hd2, hlt2, hin2, hlev2⟩ := hs2
            have hskip := skipChildren_eq { rd with dr := r1 } fuel r2 hsk
            obtain ⟨res, rd', h1, h2⟩ := hcont r2 hd2 hlt2
              (fun j h3 h4 => packageVarAt_of_inSubprogram d j
                ⟨rd.dr.off, hin2 j h3 h4, by simp [tagAt, hit, hs]⟩)
              hp ⟨hd2, fun h3 h4 => by
                have := hns
                unfold inSubprogram at this ⊢
                rw [hlev2 h3 h4]; exact this⟩
            refine ⟨res, rd', ?_, h2⟩
            rw [Reader.NextPackageVariable, hnext]
            simp only [Option.isSome_none, Bool.false_eq_true, if_false]
            rw [if_neg hv, if_pos hs, hskip]
            exact h1
          · obtain ⟨res, rd', h1, h2⟩ := hstep r1 hd1 he1 ho1 hp (htag hs)
            refine ⟨res, rd', ?_, h2⟩
            rw [Reader.NextPackageVariable, hnext]
            simp only [Option.isSome_none, Bool.false_eq_true, if_false]
            rw [if_neg hv, if_neg hs]
            exact h1
    · obtain ⟨err, hnext⟩ := next_dead rd hdead
      refine ⟨(none, none), rd, ?_, rfl, rfl, hd, fun e h => by simp at h,
        fun _ => remaining_eq_nil_of_eof _ _ hep⟩
      rw [Reader.NextPackageVariable, hnext]

end reader

/-! ## The claims -/

open dwarf reader

/-- C1 (evaluation at the failing input): with `barfoo` occupying
`[0x10, 0x20)` and `foobar` occupying `[0x20, 0x30)`, `SeekToFunction(0x20)`
returns `barfoo`, whose high bound equals the program counter: the range test
of the code is `low <= pc <= high`, not `low <= pc < high`. -/
theorem seekToFunction_accepts_pc_at_high :
    (Reader.SeekToFunction 8 (New adjacentFunctions) 0x20).map Prod.fst =
      some (some { Offset := 1, Tag := TagSubprogram, Children := false,
                   Field := [⟨AttrName, Value.string "main.barfoo"⟩,
                     ⟨AttrLowpc, Value.uint64 0x10⟩, ⟨AttrHighpc, Value.uint64 0x20⟩] }, none) := by
  rfl

/-- C2 (evaluation at the failing input): on a section whose first entry does
not decode, `Next` fails with the decoding error, yet `SeekToFunction` reports
"unable to find function context", `SeekToType` reports "no type entry found",
and the three `Next...Variable` scans return `(nil, nil)`: none of them returns
the error of `Next`. -/
theorem scans_drop_error_of_next :
    (New malformed).Next.1 = (none, some "unknown abbreviation") ∧
    (Reader.SeekToFunction 4 (New malformed) 0).map Prod.fst =
      some (none, some "unable to find function context") ∧
    (Reader.SeekToType 4 (New malformed) typedAtZero true true).map Prod.fst =
      some (none, some "no type entry found") ∧
    (Reader.NextScopeVariable 4 (New malformed)).map Prod.fst = some (none, none) ∧
    (Reader.NextMemberVariable 4 (New malformed)).map Prod.fst = some (none, none) ∧
    (Reader.NextPackageVariable 4 (New malformed)).map Prod.fst = some (none, none) := by
  refine ⟨rfl, rfl, rfl, rfl, rfl, rfl⟩

theorem val_type_of_typeOffset_none (e : Entry) (h : typeOffset e = none) :
    ∀ o, e.Val AttrType ≠ some (Value.offset o) := by
  intro o ho
  simp [typeOffset, ho] at h

theorem val_type_of_typeOffset_some (e : Entry) (o : Nat) (h : typeOffset e = some o) :
    e.Val AttrType = some (Value.offset o) := by
  unfold typeOffset at h
  split at h
  · rename_i o' ho'
    simp only [Option.some.injEq] at h
    rw [ho', h]
  · simp at h

/-- C7: when the entry has no `Type` attribute of class offset, `SeekToType`
fails with "entry does not have a type attribute", returns no entry, and hands
back the cursor unchanged (same position, same depth), whatever the flags and
the fuel. -/
theorem seekToType_missing_attribute (fuel : Nat) (rd : reader.Reader) (e : Entry)
    (resolveTypedefs resolvePointerTypes : Bool) (h : typeOffset e = none) :
    Reader.SeekToType fuel rd e resolveTypedefs resolvePointerTypes =
      some ((none, some "entry does not have a type attribute"), rd) := by
  have hv := val_type_of_typeOffset_none e h
  unfold Reader.SeekToType
  split
  · rename_i o ho
    exact absurd ho (hv o)
  · rfl

/-- C7 at a concrete input: a member entry whose `Type` attribute is a string,
not an offset, with the cursor in the middle of the fixture stream. -/
theorem seekToType_missing_attribute_witness :
    typeOffset { Offset := 3, Tag := TagMember, Children := false,
                 Field := [⟨AttrType, Value.string "int"⟩] } = none ∧
    Reader.SeekToType 0 { dr := { d := fixture, off := 5, err := none, lastChildren := true,
                                  lastSibling := 0 }, depth := 3 }
        { Offset := 3, Tag := TagMember, Children := false,
          Field := [⟨AttrType, Value.string "int"⟩] } false true =
      some ((none, some "entry does not have a type attribute"),
        { dr := { d := fixture, off := 5, err := none, lastChildren := true,
                  lastSibling := 0 }, depth := 3 }) :=
  ⟨by decide, seekToType_missing_attribute 0 _ _ false true (by decide)⟩

theorem seekToFunctionLoop_not_found (d : Data) (pc : Nat)
    (hbad : ∀ (q : Nat) (msg : String), d[q]? ≠ some (Item.bad msg))
    (hout : ∀ (q : Nat) c f lo hi, d[q]? = some (Item.die TagSubprogram c f) →
      Entry.Val { Offset := q, Tag := TagSubprogram, Children := c, Field := f } AttrLowpc =
        some (Value.uint64 lo) →
      Entry.Val { Offset := q, Tag := TagSubprogram, Children := c, Field := f } AttrHighpc =
        some (Value.uint64 hi) →
      pc < lo ∨ hi < pc) :
    ∀ fuel (rd : reader.Reader), rd.dr.d = d → rd.dr.err = none → d.length - rd.dr.off < fuel →
      ∃ rd', Reader.seekToFunctionLoop pc fuel rd =
        some ((none, some "unable to find function context"), rd') := by
  intro fuel
  induction fuel with
  | zero => intro rd _ _ h; omega
  | succ fuel ih =>
    intro rd hd he hfuel
    by_cases ho : rd.dr.off < d.length
    · obtain ⟨it, hit⟩ : ∃ it, d[rd.dr.off]? = some it :=
        ⟨d[rd.dr.off], List.getElem?_eq_getElem ho⟩
      have hit' : rd.dr.d[rd.dr.off]? = some it := by rw [hd]; exact hit
      cases it with
      | bad msg => exact absurd hit (hbad _ msg)
      | null =>
        have hnext := next_eq rd _ _ (next_of_null rd.dr he hit')
        obtain ⟨rd', h⟩ := ih
          { rd with dr := { rd.dr with off := rd.dr.off + 1, lastChildren := false } }
          hd he (by show d.length - (rd.dr.off + 1) < fuel; omega)
        refine ⟨rd', ?_⟩
        rw [Reader.seekToFunctionLoop, hnext]
        simpa [TagSubprogram] using h
      | die t c f =>
        have hnext := next_eq rd _ _ (next_of_die rd.dr t c f he hit')
        obtain ⟨rd', h⟩ := ih { rd with dr := (rd.dr.Next).2 }
          (by rw [next_of_die rd.dr t c f he hit']; exact hd)
          (by rw [next_of_die rd.dr t c f he hit']; exact he)
          (by rw [next_of_die rd.dr t c f he hit']; show d.length - (rd.dr.off + 1) < fuel; omega)
        rw [next_of_die rd.dr t c f he hit'] at h
        refine ⟨rd', ?_⟩
        rw [Reader.seekToFunctionLoop, hnext]
        simp only [Option.isSome_none, Bool.false_eq_true, if_false]
        by_cases ht : t = TagSubprogram
        · subst ht
          simp only [ne_eq, not_true_eq_false, if_false]
          split
          · rename_i lo hlo
            split
            · rename_i hi hhi
              have := hout _ c f lo hi hit hlo hhi
              rw [if_neg (by omega)]
              exact h
            · exact h
          · exact h
        · simp only [ne_eq, ht, not_false_eq_true, if_true]
          exact h
    · refine ⟨rd, ?_⟩
      have hnext := next_eq rd _ _ (next_of_eof rd.dr he (by rw [hd]; omega))
      rw [Reader.seekToFunctionLoop, hnext]

/-- C10: on a stream in which every item decodes, when `pc` lies strictly below
the low bound or strictly above the high bound of every subprogram entry that
carries both bounds (there may be none), `SeekToFunction(pc)` returns no entry
and fails with "unable to find function context", from any prior cursor state
(fuel beyond the length of the stream suffices). -/
theorem seekToFunction_not_found (d : Data) (pc : Nat) (rd : reader.Reader) (fuel : Nat)
    (hd : rd.dr.d = d) (hbad : ∀ (q : Nat) (msg : String), d[q]? ≠ some (Item.bad msg))
    (hout : ∀ (q : Nat) c f lo hi, d[q]? = some (Item.die TagSubprogram c f) →
      Entry.Val { Offset := q, Tag := TagSubprogram, Children := c, Field := f } AttrLowpc =
        some (Value.uint64 lo) →
      Entry.Val { Offset := q, Tag := TagSubprogram, Children := c, Field := f } AttrHighpc =
        some (Value.uint64 hi) →
      pc < lo ∨ hi < pc)
    (hfuel : d.length < fuel) :
    (Reader.SeekToFunction fuel rd pc).map Prod.fst =
      some (none, some "unable to find function context") := by
  unfold Reader.SeekToFunction
  obtain ⟨rd', h⟩ := seekToFunctionLoop_not_found d pc hbad hout fuel (rd.Seek 0)
    (by rw [seek_d]; exact hd) (by simp [reader.Reader.Seek, dwarf.Reader.Seek])
    (by simp only [reader.Reader.Seek, dwarf.Reader.Seek, if_true]; omega)
  rw [h]; rfl

/-- C10 at a concrete input: both functions of `adjacentFunctions` end at or
below `0x30`, and `pc = 0x31` is found in neither. -/
theorem seekToFunction_not_found_witness :
    (Reader.SeekToFunction 5 (New adjacentFunctions) 0x31).map Prod.fst =
      some (none, some "unable to find function context") :=
  seekToFunction_not_found adjacentFunctions 0x31 (New adjacentFunctions) 5 rfl
    (by
      intro q msg
      rcases q with _ | _ | _ | _ | q <;> simp [adjacentFunctions])
    (by
      intro q c f lo hi h hlo hhi
      rcases q with _ | _ | _ | _ | q <;>
        simp [adjacentFunctions, TagCompileUnit, TagSubprogram] at h <;>
        (obtain ⟨rfl, rfl⟩ := h
         simp [Entry.Val, AttrLowpc, AttrHighpc, AttrName] at hlo hhi
         omega))
    (by decide)

theorem next_after_seek (rd : reader.Reader) (off : Nat) (c : Entry)
    (h : readAt rd.dr.d off = some c) :
    ∃ rd1, (rd.Seek off).Next = ((some c, none), rd1) ∧ rd1.dr.d = rd.dr.d := by
  have hlt : off < rd.dr.d.length := by
    unfold readAt at h
    split at h
    · rename_i hit; exact lt_length_of_getElem? _ _ _ hit
    · rename_i hit; exact lt_length_of_getElem? _ _ _ hit
    · simp at h
  have hseek : (rd.Seek off).dr = { rd.dr with err := none, lastChildren := false, off := off } := by
    unfold reader.Reader.Seek dwarf.Reader.Seek
    by_cases h0 : off = 0
    · simp [h0]
    · simp [h0, hlt]
  have hd : (rd.Seek off).dr.d = rd.dr.d := by rw [hseek]
  have he : (rd.Seek off).dr.err = none := by rw [hseek]
  have ho : (rd.Seek off).dr.off = off := by rw [hseek]
  unfold readAt at h
  split at h
  · rename_i t ch f hit
    simp only [Option.some.injEq] at h
    have := next_eq (rd.Seek off) _ _
      (next_of_die (rd.Seek off).dr t ch f he (by rw [hd, ho]; exact hit))
    rw [ho, h] at this
    exact ⟨_, this, hd⟩
  · rename_i hit
    simp only [Option.some.injEq] at h
    have := next_eq (rd.Seek off) _ _
      (next_of_null (rd.Seek off).dr he (by rw [hd, ho]; exact hit))
    rw [h] at this
    exact ⟨_, this, hd⟩
  · simp at h

/-- The loop of `SeekToType` returns the first entry of the chain at which the
spec lets resolution stop. -/
theorem seekToTypeLoop_chain (a b : Bool) : ∀ (cs : List Entry) (off fuel : Nat)
    (rd : reader.Reader), isTypeChain rd.dr.d off cs → cs.length ≤ fuel →
      ∃ c rd', Reader.seekToTypeLoop a b fuel (rd.Seek off) = some ((some c, none), rd') ∧
        cs.find? (stopsAt a b) = some c := by
  intro cs
  induction cs with
  | nil => intro off fuel rd h; simp [isTypeChain] at h
  | cons c rest ih =>
    intro off fuel rd hchain hfuel
    obtain ⟨k, rfl⟩ : ∃ k, fuel = k + 1 := ⟨fuel - 1, by simp at hfuel; omega⟩
    obtain ⟨hread, hrest⟩ := hchain
    obtain ⟨rd1, hnext, hd1⟩ := next_after_seek rd off c hread
    rw [Reader.seekToTypeLoop, hnext]
    simp only [Option.isSome_none, Bool.false_eq_true, if_false]
    by_cases h1 : c.Tag = TagTypedef ∧ (!a) = true
    · rw [if_pos h1]
      exact ⟨c, rd1, rfl, by simp [List.find?, stopsAt, h1.1, h1.2]⟩
    · rw [if_neg h1]
      by_cases h2 : c.Tag = TagPointerType ∧ (!b) = true
      · rw [if_pos h2]
        exact ⟨c, rd1, rfl, by simp [List.find?, stopsAt, h2.1, h2.2]⟩
      · rw [if_neg h2]
        cases hto : typeOffset c with
        | none =>
          have hv := val_type_of_typeOffset_none c hto
          refine ⟨c, rd1, ?_, by simp [List.find?, stopsAt, hto]⟩
          split
          · rename_i o ho; exact absurd ho (hv o)
          · rfl
        | some o =>
          have hv := val_type_of_typeOffset_some c o hto
          rw [hto] at hrest
          simp only at hrest
          obtain ⟨c', rd', h3, h4⟩ := ih o k rd1 (by rw [hd1]; exact hrest)
            (by simp at hfuel; omega)
          refine ⟨c', rd', ?_, ?_⟩
          · rw [hv]; exact h3
          · have hs : stopsAt a b c = false := by
              simp only [stopsAt, hto, Option.isNone_some, Bool.or_false, Bool.or_eq_false_iff,
                Bool.and_eq_false_imp, decide_eq_true_eq]
              constructor
              · intro ht; by_contra hn; exact h1 ⟨ht, by simpa using hn⟩
              · intro ht; by_contra hn; exact h2 ⟨ht, by simpa using hn⟩
            rw [List.find?_cons, hs]
            exact h4

/-- With both flags set, resolution stops only at the base of the chain. -/
theorem typeChain_base (d : Data) : ∀ (cs : List Entry) (off : Nat), isTypeChain d off cs →
    cs.find? (stopsAt true true) = cs.getLast? ∧
      ∀ c, cs.getLast? = some c → typeOffset c = none := by
  intro cs
  induction cs with
  | nil => intro off h; simp [isTypeChain] at h
  | cons c rest ih =>
    intro off hchain
    obtain ⟨_, hrest⟩ := hchain
    cases hto : typeOffset c with
    | none =>
      rw [hto] at hrest
      simp only at hrest
      subst hrest
      refine ⟨by simp [List.find?, stopsAt, hto], ?_⟩
      intro c' hc'
      simp at hc'
      rw [← hc']; exact hto
    | some o =>
      rw [hto] at hrest
      simp only at hrest
      obtain ⟨h1, h2⟩ := ih o hrest
      cases rest with
      | nil => simp [isTypeChain] at hrest
      | cons c2 rest2 =>
        refine ⟨?_, ?_⟩
        · rw [List.find?_cons]
          simp only [stopsAt, hto, Option.isNone_some, Bool.not_true, Bool.and_false,
            Bool.or_self]
          rw [List.getLast?_cons_cons]
          exact h1
        · intro c' hc'
          rw [List.getLast?_cons_cons] at hc'
          exact h2 c' hc'

/-- C6: let `c0, c1, ...` be the chain of `Type` back-references of `e`, finite
and readable.  Given fuel for the length of the chain, `SeekToType` returns,
without error, the first entry of the chain that is a typedef while
`resolveTypedefs` is false, or a pointer type while `resolvePointerTypes` is
false, or has no `Type` attribute; with both flags true that entry is the last
of the chain, its base, which has no `Type` attribute. -/
theorem seekToType_first_stop (d : Data) (rd : reader.Reader) (e : Entry) (o : Nat)
    (cs : List Entry) (resolveTypedefs resolvePointerTypes : Bool) (fuel : Nat)
    (hd : rd.dr.d = d) (he : typeOffset e = some o) (hchain : isTypeChain d o cs)
    (hfuel : cs.length ≤ fuel) :
    (Reader.SeekToType fuel rd e resolveTypedefs resolvePointerTypes).map Prod.fst =
        some (cs.find? (stopsAt resolveTypedefs resolvePointerTypes), none) ∧
      (cs.find? (stopsAt resolveTypedefs resolvePointerTypes)).isSome = true ∧
      (resolveTypedefs = true → resolvePointerTypes = true →
        cs.find? (stopsAt resolveTypedefs resolvePointerTypes) = cs.getLast? ∧
        cs.getLast?.map typeOffset = some none) := by
  obtain ⟨c, rd', h1, h2⟩ := seekToTypeLoop_chain resolveTypedefs resolvePointerTypes cs o fuel rd
    (by rw [hd]; exact hchain) hfuel
  refine ⟨?_, by rw [h2]; rfl, ?_⟩
  · unfold Reader.SeekToType
    rw [val_type_of_typeOffset_some e o he]
    simp only
    rw [h1, h2]; rfl
  · intro ha hb
    subst ha hb
    obtain ⟨h3, h4⟩ := typeChain_base d cs o hchain
    refine ⟨h3, ?_⟩
    rw [h3] at h2
    rw [h2, Option.map_some', h4 c h2]

/-- C6 at a concrete input: the local `a8` of the fixture has type
`main.Alias`, a typedef of the struct `main.FooBar2`; with both flags set
`SeekToType` returns the struct, and with `resolveTypedefs` false the typedef. -/
theorem seekToType_first_stop_witness :
    (Reader.SeekToType 2 (New fixture) fixtureA8 true true).map Prod.fst =
      some (some fixtureFooBar2, none) ∧
    (Reader.SeekToType 2 (New fixture) fixtureA8 false true).map Prod.fst =
      some (some fixtureAlias, none) :=
  ⟨(seekToType_first_stop fixture (New fixture) fixtureA8 10 [fixtureAlias, fixtureFooBar2]
      true true 2 rfl rfl ⟨rfl, rfl, rfl⟩ (by decide)).1,
    (seekToType_first_stop fixture (New fixture) fixtureA8 10 [fixtureAlias, fixtureFooBar2]
      false true 2 rfl rfl ⟨rfl, rfl, rfl⟩ (by decide)).1⟩

/-! ### Scans of direct children -/

theorem collect_scope_eq (n : Nat) :
    collect (Reader.NextScopeVariable n) = collect (Reader.nextAtLevel isScopeTag n) := by
  have h : Reader.NextScopeVariable n = Reader.nextAtLevel isScopeTag n :=
    funext (nextScopeVariable_eq n)
  rw [h]

theorem collect_member_eq (n : Nat) :
    collect (Reader.NextMemberVariable n) = collect (Reader.nextAtLevel isMemberTag n) := by
  have h : Reader.NextMemberVariable n = Reader.nextAtLevel isMemberTag n :=
    funext (nextMemberVariable_eq n)
  rw [h]

/-- An entry with children that was just read sits at its own offset. -/
theorem readAt_of_justRead (d : Data) (e : Entry) (r : dwarf.Reader) (h : JustRead d e r)
    (hc : e.Children = true) : readAt d e.Offset = some e := by
  obtain ⟨_, _, p, _, hread⟩ := h
  have hp : e.Offset = p := by
    unfold readAt at hread
    split at hread
    · simp only [Option.some.injEq] at hread
      rw [← hread]
    · simp only [Option.some.injEq] at hread
      rw [← hread] at hc
      simp at hc
    · simp at hread
  rw [hp]; exact hread

/-- `SeekToEntry` on an entry of the stream succeeds and leaves the reader
right behind that entry. -/
theorem seekToEntry_justRead (d : Data) (rd : reader.Reader) (f : Entry) (hd : rd.dr.d = d)
    (hf : readAt d f.Offset = some f) :
    (rd.SeekToEntry f).1 = none ∧ JustRead d f (rd.SeekToEntry f).2.dr := by
  obtain ⟨rd1, hnext, hd1⟩ := next_after_seek rd f.Offset f (by rw [hd]; exact hf)
  obtain ⟨_, hj, _⟩ := justRead_of_next _ _ _ _ hnext
  rw [seek_d, hd] at hj
  have : rd.SeekToEntry f = (none, rd1) := by
    unfold Reader.SeekToEntry
    simp only [hnext]
  rw [this]
  exact ⟨rfl, hj⟩

/-- C3, as the code has it: for a well-formed stream and an entry `f` of it
whose `Children` flag is set, `SeekToEntry(f)` succeeds and the successive calls
of `NextScopeVariable` up to the first `(nil, nil)` return the direct children
of `f` that are variables or formal parameters; every entry returned is a
direct child of `f` and an entry of the stream. -/
theorem nextScopeVariable_children_only (d : Data) (rd : reader.Reader) (f : Entry) (n : Nat)
    (hwf : wellFormed d = true) (hd : rd.dr.d = d) (hf : readAt d f.Offset = some f)
    (hc : f.Children = true) (hn : d.length + 2 ≤ n) :
    (rd.SeekToEntry f).1 = none ∧
    (collect (Reader.NextScopeVariable n) n (rd.SeekToEntry f).2).map Prod.fst =
      some (childrenOf d f.Offset isScopeTag) ∧
    ∀ e ∈ childrenOf d f.Offset isScopeTag,
      isChild d f.Offset e.Offset ∧ readAt d e.Offset = some e := by
  obtain ⟨h1, h2⟩ := seekToEntry_justRead d rd f hd hf
  obtain ⟨rd', h3⟩ := collect_children d hwf isScopeTag f _ h2 hc n hn
  refine ⟨h1, by rw [collect_scope_eq, h3]; rfl, fun e he => ?_⟩
  obtain ⟨h4, _, h5⟩ := mem_childrenOf d f.Offset isScopeTag e he
  exact ⟨h4, h5⟩

/-- C3 as amended, at a concrete input: after `SeekToEntry(main.foobar)` on the
fixture the scan returns `baz`, `a1` and `a8`, not the local `inner` of the
nested block. -/
theorem nextScopeVariable_children_only_witness :
    ((New fixture).SeekToEntry fixtureFoobar).1 = none ∧
    (collect (Reader.NextScopeVariable 26) 26 ((New fixture).SeekToEntry fixtureFoobar).2).map
      Prod.fst = some [fixtureBaz0, fixtureA1, fixtureA8] :=
  ⟨(nextScopeVariable_children_only fixture (New fixture) fixtureFoobar 26 (by decide) rfl rfl
      rfl (by decide)).1,
    (nextScopeVariable_children_only fixture (New fixture) fixtureFoobar 26 (by decide) rfl rfl
      rfl (by decide)).2.1⟩

/-- C3 as stated fails for an entry without children: `a1` of `main.foobar` is
an entry of the well-formed fixture, `SeekToEntry(a1)` succeeds, and the next
`NextScopeVariable` returns `a8`, a sibling of `a1`, not a child of it. -/
theorem nextScopeVariable_returns_sibling :
    wellFormed fixture = true ∧ readAt fixture fixtureA1.Offset = some fixtureA1 ∧
    ((New fixture).SeekToEntry fixtureA1).1 = none ∧
    (Reader.NextScopeVariable 26 ((New fixture).SeekToEntry fixtureA1).2).map Prod.fst =
      some (some fixtureA8, none) ∧
    ¬ isChild fixture fixtureA1.Offset fixtureA8.Offset := by
  refine ⟨by decide, rfl, rfl, rfl, by decide⟩

/-- C9: for a well-formed stream, when `SeekToFunction(pc)` returns a function
entry `f` with children, the successive calls of `NextScopeVariable` up to the
first `(nil, nil)` return exactly the direct children of `f` whose tag is
variable or formal parameter, each once and in stream order; `f` is an entry of
the stream, and each entry returned is a direct child of `f` carrying exactly
one of the two tags. -/
theorem nextScopeVariable_after_seekToFunction (d : Data) (rd rd' : reader.Reader) (pc fuel : Nat)
    (f : Entry) (n : Nat) (hwf : wellFormed d = true) (hd : rd.dr.d = d)
    (hs : Reader.SeekToFunction fuel rd pc = some ((some f, none), rd'))
    (hc : f.Children = true) (hn : d.length + 2 ≤ n) :
    (collect (Reader.NextScopeVariable n) n rd').map Prod.fst =
      some (childrenOf d f.Offset isScopeTag) ∧
    readAt d f.Offset = some f ∧
    ∀ e ∈ childrenOf d f.Offset isScopeTag, isChild d f.Offset e.Offset ∧
      ((e.Tag = TagVariable ∧ e.Tag ≠ TagFormalParameter) ∨
        (e.Tag = TagFormalParameter ∧ e.Tag ≠ TagVariable)) := by
  obtain ⟨_, hj, _⟩ := seekToFunctionLoop_some pc fuel _ rd' f none hs
  rw [seek_d, hd] at hj
  obtain ⟨rd'', h3⟩ := collect_children d hwf isScopeTag f rd' hj hc n hn
  refine ⟨by rw [collect_scope_eq, h3]; rfl, readAt_of_justRead d f _ hj hc, fun e he => ?_⟩
  obtain ⟨h4, h5, _⟩ := mem_childrenOf d f.Offset isScopeTag e he
  refine ⟨h4, ?_⟩
  simp only [isScopeTag, decide_eq_true_eq] at h5
  rcases h5 with h5 | h5
  · left; exact ⟨h5, by rw [h5]; decide⟩
  · right; exact ⟨h5, by rw [h5]; decide⟩

/-- C9 at a concrete input: with the program counter inside `main.barfoo` the
scan returns the local `a1` of `barfoo` only; `a8`, declared in `main.foobar`,
is not returned. -/
theorem nextScopeVariable_after_seekToFunction_witness :
    Reader.SeekToFunction 26 (New fixture) 0x15 = some ((some fixtureBarfoo, none),
      { dr := { d := fixture, off := 12, err := none, lastChildren := true, lastSibling := 0 },
        depth := 0 }) ∧
    (collect (Reader.NextScopeVariable 26) 26
      { dr := { d := fixture, off := 12, err := none, lastChildren := true, lastSibling := 0 },
        depth := 0 }).map Prod.fst = some [fixtureBarfooA1] :=
  ⟨rfl, (nextScopeVariable_after_seekToFunction fixture (New fixture)
    { dr := { d := fixture, off := 12, err := none, lastChildren := true, lastSibling := 0 },
      depth := 0 } 0x15 26 fixtureBarfoo 26 (by decide) rfl rfl rfl (by decide)).1⟩

/-- C8: for a well-formed stream, when `SeekToType(e, true, true)` returns an
entry `s` with children (a struct type), the successive calls of
`NextMemberVariable` up to the first `(nil, nil)` return exactly the direct
children of `s` with tag member, each once and in stream order, which is the
order of declaration; `s` is an entry of the stream and every entry returned is
a direct child of `s`, so members of nested structs are left out. -/
theorem nextMemberVariable_after_seekToType (d : Data) (rd rd' : reader.Reader) (e s : Entry)
    (fuel n : Nat) (hwf : wellFormed d = true) (hd : rd.dr.d = d)
    (hs : Reader.SeekToType fuel rd e true true = some ((some s, none), rd'))
    (hc : s.Children = true) (hn : d.length + 2 ≤ n) :
    (collect (Reader.NextMemberVariable n) n rd').map Prod.fst =
      some (childrenOf d s.Offset isMemberTag) ∧
    readAt d s.Offset = some s ∧
    ∀ m ∈ childrenOf d s.Offset isMemberTag, isChild d s.Offset m.Offset ∧ m.Tag = TagMember := by
  have hj : JustRead d s rd'.dr := by
    unfold Reader.SeekToType at hs
    split at hs
    · obtain ⟨_, hj⟩ := seekToTypeLoop_some true true fuel _ rd' s none hs
      rw [seek_d, hd] at hj
      exact hj
    · simp at hs
  obtain ⟨rd'', h3⟩ := collect_children d hwf isMemberTag s rd' hj hc n hn
  refine ⟨by rw [collect_member_eq, h3]; rfl, readAt_of_justRead d s _ hj hc, fun m hm => ?_⟩
  obtain ⟨h4, h5, _⟩ := mem_childrenOf d s.Offset isMemberTag m hm
  exact ⟨h4, by simpa [isMemberTag] using h5⟩

/-- C8 at a concrete input: the type of `a8` in the fixture resolves to
`main.FooBar2`, whose members come back in declaration order, `Bur` then `Baz`,
not sorted by name. -/
theorem nextMemberVariable_after_seekToType_witness :
    Reader.SeekToType 2 (New fixture) fixtureA8 true true = some ((some fixtureFooBar2, none),
      { dr := { d := fixture, off := 7, err := none, lastChildren := true, lastSibling := 0 },
        depth := 0 }) ∧
    (collect (Reader.NextMemberVariable 26) 26
      { dr := { d := fixture, off := 7, err := none, lastChildren := true, lastSibling := 0 },
        depth := 0 }).map Prod.fst = some [fixtureBur, fixtureBaz] :=
  ⟨rfl, (nextMemberVariable_after_seekToType fixture (New fixture)
    { dr := { d := fixture, off := 7, err := none, lastChildren := true, lastSibling := 0 },
      depth := 0 } fixtureA8 fixtureFooBar2 2 26 (by decide) rfl rfl rfl (by decide)).1⟩

/-! ### Package variables -/

theorem packageVarAt_some (d : Data) (j : Nat) (e : Entry) (h : packageVarAt d j = some e) :
    e.Tag = TagVariable ∧ e.Val AttrExternal = some (Value.bool true) ∧
      readAt d e.Offset = some e ∧ ¬ inSubprogram d e.Offset := by
  unfold packageVarAt at h
  split at h
  · rename_i t c f hit
    simp only at h
    split at h
    · rename_i hc
      simp only [Option.some.injEq] at h
      subst h
      exact ⟨hc.1, hc.2.1, by simp [readAt, hit], hc.2.2⟩
    · simp at h
  · simp at h

theorem mem_remaining (f : Nat → Option Entry) (r : dwarf.Reader) (e : Entry)
    (h : e ∈ remaining f r) : ∃ j, f j = some e := by
  unfold remaining at h
  rw [List.mem_filterMap] at h
  obtain ⟨j, _, hj⟩ := h
  exact ⟨j, hj⟩

/-- Where `NextPackageVariable` does keep to its doc comment: for a well-formed
stream and a cursor that does not stand inside a subprogram entry, it returns
(given fuel for the stream), and a non-nil result is an entry of the stream
that is a variable with external=true and is not a descendant of any
subprogram entry. -/
theorem nextPackageVariable_outside (d : Data) (rd : reader.Reader) (n : Nat)
    (hwf : wellFormed d = true) (hd : rd.dr.d = d) (hout : ¬ inSubprogram d rd.dr.off)
    (hn : d.length + 2 ≤ n) :
    (Reader.NextPackageVariable n rd).isSome = true ∧
    ∀ e err rd', Reader.NextPackageVariable n rd = some ((some e, err), rd') →
      e.Tag = TagVariable ∧ e.Val AttrExternal = some (Value.bool true) ∧
        readAt d e.Offset = some e ∧ ¬ inSubprogram d e.Offset := by
  obtain ⟨res, rd1, h1, _, _, _, h2, _⟩ := nextPackageVariable_spec d hwf n rd
    ⟨hd, fun _ _ => hout⟩ (by omega)
  refine ⟨by rw [h1]; rfl, fun e err rd' h => ?_⟩
  rw [h1] at h
  simp only [Option.some.injEq, Prod.mk.injEq] at h
  obtain ⟨h3, h4⟩ := h
  obtain ⟨h5, _, _⟩ := h2 e (by rw [h3])
  obtain ⟨j, hj⟩ := mem_remaining (packageVarAt d) rd.dr e (by rw [h5]; exact List.mem_cons_self _ _)
  exact packageVarAt_some d j e hj

/-- From the start of the fixture the scan passes over `main.barfoo` and
`main.foobar` and returns `main.global`. -/
theorem nextPackageVariable_outside_witness :
    (Reader.NextPackageVariable 26 (New fixture)).map Prod.fst = some (some fixtureGlobal, none) ∧
    fixtureGlobal.Tag = TagVariable ∧ ¬ inSubprogram fixture fixtureGlobal.Offset :=
  ⟨rfl,
    ((nextPackageVariable_outside fixture (New fixture) 26 (by decide) rfl (by decide)
      (by decide)).2 fixtureGlobal none _ rfl).1,
    ((nextPackageVariable_outside fixture (New fixture) 26 (by decide) rfl (by decide)
      (by decide)).2 fixtureGlobal none _ rfl).2.2.2⟩

/-- C4 (evaluation at the failing input): after `SeekToFunction(0x15)` on the
well-formed fixture the cursor stands at the first child of `main.barfoo`, and
`NextPackageVariable` returns the local `a1` of `barfoo` (marked external), a
descendant of a subprogram entry, which the doc comment of the function ("not
inside a sub prgram entry") excludes from the package variables. -/
theorem nextPackageVariable_returns_local :
    wellFormed fixture = true ∧
    Reader.SeekToFunction 26 (New fixture) 0x15 = some ((some fixtureBarfoo, none),
      { dr := { d := fixture, off := 12, err := none, lastChildren := true, lastSibling := 0 },
        depth := 0 }) ∧
    (Reader.NextPackageVariable 26
      { dr := { d := fixture, off := 12, err := none, lastChildren := true, lastSibling := 0 },
        depth := 0 }).map Prod.fst = some (some fixtureBarfooA1, none) ∧
    inSubprogram fixture fixtureBarfooA1.Offset := by
  refine ⟨by decide, rfl, rfl, by decide⟩

/-- C5: for a well-formed stream (every item decodes, so `Next` never errors),
after `Seek(0)` the successive calls of `NextPackageVariable` up to the first
`(nil, nil)` return exactly the entries with tag variable and external=true
that are not inside any subprogram entry, each once and in stream order, over
the whole stream: terminators and compile-unit boundaries do not stop the
scan. -/
theorem nextPackageVariable_all (d : Data) (rd : reader.Reader) (n : Nat)
    (hwf : wellFormed d = true) (hd : rd.dr.d = d) (hn : d.length + 2 ≤ n) :
    (collect (Reader.NextPackageVariable n) n (rd.Seek 0)).map Prod.fst =
      some (packageVars d) := by
  have hseek : (rd.Seek 0).dr = { rd.dr with err := none, lastChildren := false, off := 0 } := by
    simp [reader.Reader.Seek, dwarf.Reader.Seek]
  have hd0 : (rd.Seek 0).dr.d = d := by rw [hseek]; exact hd
  have hout : Outside d (rd.Seek 0).dr := by
    refine ⟨hd0, fun _ _ => ?_⟩
    rw [hseek]
    rintro ⟨a, ha, _⟩
    simp [ancestors] at ha
  obtain ⟨rd', h⟩ := collect_spec d (Reader.NextPackageVariable n) (remaining (packageVarAt d))
    (Outside d) (fun r hr => hr.1)
    (fun rd1 h1 => by
      obtain ⟨res, rd2, h2, _, _, _, h3, h4⟩ := nextPackageVariable_spec d hwf n rd1 h1 (by omega)
      exact ⟨res, rd2, h2, h3, h4⟩)
    n (rd.Seek 0) hout (by omega)
  rw [h]
  have hep : (rd.Seek 0).dr.epos = 0 := by
    rcases epos_cases (rd.Seek 0).dr with ⟨_, _, h1⟩ | ⟨h3, h1⟩
    · rw [h1, hseek]
    · rcases h3 with h3 | h3
      · rw [hseek] at h3; simp at h3
      · rw [h1]; rw [hseek] at h3 ⊢; simpa using h3
  show some (remaining (packageVarAt d) (rd.Seek 0).dr) = some (packageVars d)
  unfold remaining packageVars
  rw [hep, hd0, List.range_eq_range']
  simp

/-- C5 at a concrete input: the fixture has one package variable,
`main.global`; the external local `a1` of `main.barfoo` is not listed. -/
theorem nextPackageVariable_all_witness :
    (collect (Reader.NextPackageVariable 26) 26 ((New fixture).Seek 0)).map Prod.fst =
      some [fixtureGlobal] :=
  nextPackageVariable_all fixture (New fixture) 26 (by decide) rfl (by decide)

/-! ### `SeekToFunction` as a search of the stream -/

theorem accepts_iff (pc : Nat) (e : Entry) :
    accepts pc e = true ↔ e.Tag = TagSubprogram ∧ ∃ lo hi,
      e.Val AttrLowpc = some (Value.uint64 lo) ∧ e.Val AttrHighpc = some (Value.uint64 hi) ∧
        lo ≤ pc ∧ pc ≤ hi := by
  unfold accepts
  constructor
  · intro h
    simp only [Bool.and_eq_true, decide_eq_true_eq] at h
    obtain ⟨ht, hm⟩ := h
    refine ⟨ht, ?_⟩
    split at hm
    · rename_i lo hi hlo hhi
      simp only [ge_iff_le, decide_eq_true_eq] at hm
      exact ⟨lo, hi, hlo, hhi, hm.1, hm.2⟩
    · simp at hm
  · rintro ⟨ht, lo, hi, hlo, hhi, h1, h2⟩
    simp [ht, hlo, hhi, h1, h2]

/-- One round of the loop of `SeekToFunction` on an entry that `Next` returns:
the entry is returned when the range test accepts it, else the loop goes on. -/
theorem seekToFunctionLoop_succ (pc fuel : Nat) (rd rd1 : reader.Reader) (e : Entry)
    (h : rd.Next = ((some e, none), rd1)) :
    Reader.seekToFunctionLoop pc (fuel + 1) rd =
      if accepts pc e = true then some ((some e, none), rd1)
      else Reader.seekToFunctionLoop pc fuel rd1 := by
  rw [Reader.seekToFunctionLoop, h]
  simp only [Option.isSome_none, Bool.false_eq_true, if_false]
  by_cases ht : e.Tag = TagSubprogram
  · simp only [ht, ne_eq, not_true_eq_false, if_false]
    split
    · rename_i lo hlo
      split
      · rename_i hi hhi
        by_cases hc : lo ≤ pc ∧ hi ≥ pc
        · rw [if_pos hc, if_pos ((accepts_iff pc e).2 ⟨ht, lo, hi, hlo, hhi, hc.1, hc.2⟩)]
        · rw [if_neg hc, if_neg]
          intro ha
          obtain ⟨_, lo', hi', hlo', hhi', h1, h2⟩ := (accepts_iff pc e).1 ha
          rw [hlo] at hlo'
          rw [hhi] at hhi'
          simp only [Option.some.injEq, Value.uint64.injEq] at hlo' hhi'
          subst hlo' hhi'
          exact hc ⟨h1, h2⟩
      · rename_i hno
        rw [if_neg]
        intro ha
        obtain ⟨_, lo', hi', _, hhi', _, _⟩ := (accepts_iff pc e).1 ha
        exact hno hi' hhi'
    · rename_i hno
      rw [if_neg]
      intro ha
      obtain ⟨_, lo', hi', hlo', _, _, _⟩ := (accepts_iff pc e).1 ha
      exact hno lo' hlo'
  · simp only [ne_eq, ht, not_false_eq_true, if_true]
    rw [if_neg]
    intro ha
    exact ht ((accepts_iff pc e).1 ha).1

/-- The loop of `SeekToFunction` returns the first entry the range test
accepts among the entries that sequential reading yields from the cursor on. -/
theorem seekToFunctionLoop_find (d : Data) (pc : Nat) :
    ∀ fuel (rd : reader.Reader), rd.dr.d = d → rd.dr.err = none →
      d.length - rd.dr.off < fuel →
      ∃ rd', Reader.seekToFunctionLoop pc fuel rd =
        some ((match (entriesFrom rd.dr.off (d.drop rd.dr.off)).find? (accepts pc) with
          | some e => (some e, none)
          | none => (none, some "unable to find function context")), rd') ∧
        rd'.depth = rd.depth := by
  intro fuel
  induction fuel with
  | zero => intro rd _ _ h; omega
  | succ fuel ih =>
    intro rd hd he hfuel
    by_cases ho : rd.dr.off < d.length
    · have hdrop := List.drop_eq_getElem_cons ho
      have hit' : rd.dr.d[rd.dr.off]? = some d[rd.dr.off] := by
        rw [hd]; exact List.getElem?_eq_getElem ho
      rw [hdrop]
      cases hitem : d[rd.dr.off] with
      | bad msg =>
        rw [hitem] at hit'
        have hnext := next_eq rd _ _ (next_of_bad rd.dr msg he hit')
        refine ⟨{ rd with dr := { rd.dr with err := some msg } }, ?_, rfl⟩
        rw [Reader.seekToFunctionLoop, hnext]
        simp [entriesFrom]
      | null =>
        rw [hitem] at hit'
        have hnext := next_eq rd _ _ (next_of_null rd.dr he hit')
        obtain ⟨rd', h1, h2⟩ := ih
          { rd with dr := { rd.dr with off := rd.dr.off + 1, lastChildren := false } }
          hd he (by show d.length - (rd.dr.off + 1) < fuel; omega)
        refine ⟨rd', ?_, h2⟩
        rw [seekToFunctionLoop_succ pc fuel rd _ _ hnext]
        have hna : accepts pc { Offset := 0, Tag := 0, Children := false, Field := [] } = false := by
          simp [accepts, TagSubprogram]
        rw [if_neg (by rw [hna]; simp), h1]
        simp only [entriesFrom, List.find?_cons, hna]
      | die t c f =>
        rw [hitem] at hit'
        have hnx := next_of_die rd.dr t c f he hit'
        have hnext := next_eq rd _ _ hnx
        by_cases ha : accepts pc { Offset := rd.dr.off, Tag := t, Children := c, Field := f } = true
        · refine ⟨{ rd with dr := rd.dr.Next.2 }, ?_, rfl⟩
          rw [seekToFunctionLoop_succ pc fuel rd _ _ hnext, if_pos ha, hnx]
          simp only [entriesFrom, List.find?_cons, ha]
        · obtain ⟨rd', h1, h2⟩ := ih { rd with dr := rd.dr.Next.2 }
            (by rw [hnx]; exact hd) (by rw [hnx]; exact he)
            (by rw [hnx]; show d.length - (rd.dr.off + 1) < fuel; omega)
          rw [hnx] at h1 h2
          refine ⟨rd', ?_, h2⟩
          rw [seekToFunctionLoop_succ pc fuel rd _ _ hnext, if_neg ha, h1]
          have ha' : accepts pc { Offset := rd.dr.off, Tag := t, Children := c, Field := f } =
              false := by simpa using ha
          simp only [entriesFrom, List.find?_cons, ha']
    · have hnext := next_eq rd _ _ (next_of_eof rd.dr he (by rw [hd]; omega))
      have hdrop : d.drop rd.dr.off = [] := List.drop_eq_nil_of_le (by omega)
      refine ⟨rd, ?_, rfl⟩
      rw [Reader.seekToFunctionLoop, hnext, hdrop]
      simp [entriesFrom]

theorem seekToFunctionLoop_reaches (d : Data) (pc j : Nat) (c : Bool) (f : List Field)
    (hj : d[j]? = some (Item.die TagSubprogram c f))
    (hacc : accepts pc { Offset := j, Tag := TagSubprogram, Children := c, Field := f } = true)
    (hbad : ∀ q, q < j → ∀ msg, d[q]? ≠ some (Item.bad msg))
    (hrej : ∀ q, q < j → ∀ t c' f', d[q]? = some (Item.die t c' f') →
      accepts pc { Offset := q, Tag := t, Children := c', Field := f' } = false) :
    ∀ n fuel (rd : reader.Reader), rd.dr.d = d → rd.dr.err = none → rd.dr.off + n = j →
      n < fuel →
      (Reader.seekToFunctionLoop pc fuel rd).map Prod.fst =
        some (some { Offset := j, Tag := TagSubprogram, Children := c, Field := f }, none) := by
  intro n
  induction n with
  | zero =>
    intro fuel rd hd he hoff hfuel
    obtain ⟨k, rfl⟩ : ∃ k, fuel = k + 1 := ⟨fuel - 1, by omega⟩
    have hoj : rd.dr.off = j := by omega
    have hnx := next_of_die rd.dr TagSubprogram c f he (by rw [hd, hoj]; exact hj)
    rw [seekToFunctionLoop_succ pc k rd _ _ (next_eq rd _ _ hnx), hoj, if_pos hacc]
    rfl
  | succ n ih =>
    intro fuel rd hd he hoff hfuel
    obtain ⟨k, rfl⟩ : ∃ k, fuel = k + 1 := ⟨fuel - 1, by omega⟩
    have hlt : rd.dr.off < j := by omega
    have hlen : rd.dr.off < d.length := by
      have := lt_length_of_getElem? d j _ hj
      omega
    obtain ⟨it, hit⟩ : ∃ it, d[rd.dr.off]? = some it :=
      ⟨d[rd.dr.off], List.getElem?_eq_getElem hlen⟩
    have hit' : rd.dr.d[rd.dr.off]? = some it := by rw [hd]; exact hit
    cases it with
    | bad msg => exact absurd hit (hbad _ hlt msg)
    | null =>
      have hnx := next_of_null rd.dr he hit'
      have hna : accepts pc { Offset := 0, Tag := 0, Children := false, Field := [] } = false := by
        simp [accepts, TagSubprogram]
      rw [seekToFunctionLoop_succ pc k rd _ _ (next_eq rd _ _ hnx), if_neg (by rw [hna]; simp)]
      exact ih k _ hd he (by show rd.dr.off + 1 + n = j; omega) (by omega)
    | die t c' f' =>
      have hnx := next_of_die rd.dr t c' f' he hit'
      have hna := hrej _ hlt t c' f' hit
      rw [seekToFunctionLoop_succ pc k rd _ _ (next_eq rd _ _ hnx), if_neg (by rw [hna]; simp)]
      exact ih k _ hd he (by show rd.dr.off + 1 + n = j; omega) (by omega)

/-- C11, as the code has it: a subprogram entry that lacks a low or a high
program counter is skipped without error.  If the entry at offset `j` is a
subprogram with both bounds containing `pc`, every item before it decodes, and
`pc` lies strictly below the low bound or strictly above the high bound of every
subprogram before it that carries both bounds (subprograms lacking a bound may
precede it freely), then `SeekToFunction(pc)` returns the entry at `j`; and
whatever `SeekToFunction` returns, on any stream, carries both bounds. -/
theorem seekToFunction_skips_unbounded (d : Data) (pc fuel : Nat) (rd : reader.Reader)
    (j : Nat) (c : Bool) (f : List Field) (lo hi : Nat) (hd : rd.dr.d = d)
    (hbad : ∀ q, q < j → ∀ msg, d[q]? ≠ some (Item.bad msg))
    (hbefore : ∀ q, q < j → ∀ c' f' lo' hi', d[q]? = some (Item.die TagSubprogram c' f') →
      Entry.Val { Offset := q, Tag := TagSubprogram, Children := c', Field := f' } AttrLowpc =
        some (Value.uint64 lo') →
      Entry.Val { Offset := q, Tag := TagSubprogram, Children := c', Field := f' } AttrHighpc =
        some (Value.uint64 hi') →
      pc < lo' ∨ hi' < pc)
    (hj : d[j]? = some (Item.die TagSubprogram c f))
    (hlo : Entry.Val { Offset := j, Tag := TagSubprogram, Children := c, Field := f } AttrLowpc =
      some (Value.uint64 lo))
    (hhi : Entry.Val { Offset := j, Tag := TagSubprogram, Children := c, Field := f } AttrHighpc =
      some (Value.uint64 hi))
    (hin : lo ≤ pc ∧ pc < hi) (hfuel : j < fuel) :
    (Reader.SeekToFunction fuel rd pc).map Prod.fst =
        some (some { Offset := j, Tag := TagSubprogram, Children := c, Field := f }, none) ∧
      ∀ fuel' (rd0 rd' : reader.Reader) pc' e err,
        Reader.SeekToFunction fuel' rd0 pc' = some ((some e, err), rd') →
        ∃ lo' hi', e.Val AttrLowpc = some (Value.uint64 lo') ∧
          e.Val AttrHighpc = some (Value.uint64 hi') := by
  constructor
  · unfold Reader.SeekToFunction
    refine seekToFunctionLoop_reaches d pc j c f hj
      ((accepts_iff pc _).2 ⟨rfl, lo, hi, hlo, hhi, hin.1, by omega⟩) hbad ?_ j fuel (rd.Seek 0)
      (by rw [seek_d]; exact hd) (by simp [reader.Reader.Seek, dwarf.Reader.Seek])
      (by simp [reader.Reader.Seek, dwarf.Reader.Seek]) hfuel
    intro q hq t c' f' hit
    by_contra hcon
    have hacc : accepts pc { Offset := q, Tag := t, Children := c', Field := f' } = true := by
      simpa using hcon
    obtain ⟨ht, lo', hi', hlo', hhi', h1, h2⟩ := (accepts_iff pc _).1 hacc
    simp only at ht
    subst ht
    have := hbefore q hq c' f' lo' hi' hit hlo' hhi'
    omega
  · intro fuel' rd0 rd' pc' e err h
    obtain ⟨_, _, _, _, lo', hi', h1, h2, _⟩ := seekToFunctionLoop_some pc' fuel' _ rd' e err h
    exact ⟨lo', hi', h1, h2⟩

/-- C11 as amended, at a concrete input: in `withDeclaration` a declaration of
`main.foobar` without bounds and a subprogram without a high bound precede the
definition of `main.foobar`, which is returned for `pc = 0x25`. -/
theorem seekToFunction_skips_unbounded_witness :
    (Reader.SeekToFunction 4 (New withDeclaration) 0x25).map Prod.fst =
      some (some { Offset := 3, Tag := TagSubprogram, Children := false,
                   Field := [⟨AttrName, Value.string "main.foobar"⟩,
                     ⟨AttrLowpc, Value.uint64 0x20⟩, ⟨AttrHighpc, Value.uint64 0x30⟩] }, none) :=
  (seekToFunction_skips_unbounded withDeclaration 0x25 4 (New withDeclaration) 3 false
    [⟨AttrName, Value.string "main.foobar"⟩, ⟨AttrLowpc, Value.uint64 0x20⟩,
      ⟨AttrHighpc, Value.uint64 0x30⟩] 0x20 0x30 rfl
    (by
      intro q hq msg
      rcases q with _ | _ | _ | q
      · simp [withDeclaration]
      · simp [withDeclaration]
      · simp [withDeclaration]
      · omega)
    (by
      intro q hq c' f' lo' hi' h hlo' hhi'
      rcases q with _ | _ | _ | q
      · simp [withDeclaration, TagCompileUnit, TagSubprogram] at h
      · simp [withDeclaration] at h
        obtain ⟨rfl, rfl⟩ := h
        simp [Entry.Val, AttrLowpc, AttrName] at hlo'
      · simp [withDeclaration] at h
        obtain ⟨rfl, rfl⟩ := h
        simp [Entry.Val, AttrHighpc, AttrLowpc, AttrName] at hhi'
      · omega)
    rfl rfl rfl (by decide) (by decide)).1

/-- C11 as stated fails: a later subprogram entry with both bounds that
contains `pc` is not returned when an earlier entry is accepted first or an
earlier item does not decode, however the entries without bounds are treated.
In `overlappingFunctions` the entry at offset 3 (`main.foobar`, `[0x20, 0x40)`)
contains `0x25`, yet `main.barfoo` at offset 2, whose range also contains it, is
returned.  In `declarationThenMalformed` the entry at offset 3 contains `0x25`,
yet the scan ends at the item that does not decode and reports not-found.  In
`declarationThenAdjacent` the entry at offset 3 (`main.foobar`,
`[0x20, 0x30)`) contains `0x20`, yet `main.barfoo`, whose high bound is `0x20`,
is returned (the inclusive range test reported under C1). -/
theorem seekToFunction_later_entry_not_returned :
    overlappingFunctions[3]? = some (Item.die TagSubprogram false
      [⟨AttrName, Value.string "main.foobar"⟩, ⟨AttrLowpc, Value.uint64 0x20⟩,
        ⟨AttrHighpc, Value.uint64 0x40⟩]) ∧
    (Reader.SeekToFunction 6 (New overlappingFunctions) 0x25).map Prod.fst =
      some (some { Offset := 2, Tag := TagSubprogram, Children := false,
                   Field := [⟨AttrName, Value.string "main.barfoo"⟩,
                     ⟨AttrLowpc, Value.uint64 0x10⟩, ⟨AttrHighpc, Value.uint64 0x30⟩] }, none) ∧
    declarationThenMalformed[3]? = some (Item.die TagSubprogram false
      [⟨AttrName, Value.string "main.foobar"⟩, ⟨AttrLowpc, Value.uint64 0x20⟩,
        ⟨AttrHighpc, Value.uint64 0x30⟩]) ∧
    (Reader.SeekToFunction 6 (New declarationThenMalformed) 0x25).map Prod.fst =
      some (none, some "unable to find function context") ∧
    declarationThenAdjacent[3]? = some (Item.die TagSubprogram false
      [⟨AttrName, Value.string "main.foobar"⟩, ⟨AttrLowpc, Value.uint64 0x20⟩,
        ⟨AttrHighpc, Value.uint64 0x30⟩]) ∧
    (Reader.SeekToFunction 6 (New declarationThenAdjacent) 0x20).map Prod.fst =
      some (some { Offset := 2, Tag := TagSubprogram, Children := false,
                   Field := [⟨AttrName, Value.string "main.barfoo"⟩,
                     ⟨AttrLowpc, Value.uint64 0x10⟩, ⟨AttrHighpc, Value.uint64 0x20⟩] }, none) := by
  refine ⟨rfl, rfl, rfl, rfl, rfl, rfl⟩

/-- C15: `SeekToFunction(pc)` depends on the stream and `pc` only.  From any
two prior cursor states over the same stream (whatever their position, error,
and depth) it returns the same result, the first entry in stream order from
offset 0 that the range test accepts, or the not-found error; and when it
returns an entry the cursor stands right behind that entry, at depth 0. -/
theorem seekToFunction_independent (d : Data) (pc fuel : Nat) (rd1 rd2 : reader.Reader)
    (hd1 : rd1.dr.d = d) (hd2 : rd2.dr.d = d) (hfuel : d.length < fuel) :
    (Reader.SeekToFunction fuel rd1 pc).map Prod.fst = some (functionAt d pc) ∧
    (Reader.SeekToFunction fuel rd2 pc).map Prod.fst =
      (Reader.SeekToFunction fuel rd1 pc).map Prod.fst ∧
    ∀ e err rd', Reader.SeekToFunction fuel rd1 pc = some ((some e, err), rd') →
      rd'.dr.d = d ∧ rd'.dr.off = e.Offset + 1 ∧ rd'.dr.err = none ∧ rd'.depth = 0 := by
  have key : ∀ rd : reader.Reader, rd.dr.d = d →
      (Reader.SeekToFunction fuel rd pc).map Prod.fst = some (functionAt d pc) := by
    intro rd hd
    obtain ⟨rd', h, _⟩ := seekToFunctionLoop_find d pc fuel (rd.Seek 0)
      (by rw [seek_d]; exact hd) (by simp [reader.Reader.Seek, dwarf.Reader.Seek])
      (by simp only [reader.Reader.Seek, dwarf.Reader.Seek, if_true]; omega)
    have hoff : (rd.Seek 0).dr.off = 0 := by simp [reader.Reader.Seek, dwarf.Reader.Seek]
    unfold Reader.SeekToFunction
    rw [h, hoff]
    rfl
  refine ⟨key rd1 hd1, by rw [key rd1 hd1, key rd2 hd2], fun e err rd' h => ?_⟩
  obtain ⟨_, hj, hdep, ht, _⟩ := seekToFunctionLoop_some pc fuel _ rd' e err h
  rw [seek_d, hd1] at hj
  obtain ⟨h1, h2, p, h3, h4⟩ := hj
  refine ⟨h1, ?_, h2, by rw [hdep]; rfl⟩
  have hp : e.Offset = p := by
    unfold readAt at h4
    split at h4
    · simp only [Option.some.injEq] at h4
      rw [← h4]
    · simp only [Option.some.injEq] at h4
      rw [← h4] at ht
      simp [TagSubprogram] at ht
    · simp at h4
  rw [h3, hp]

/-- C15 at a concrete input: from a fresh cursor and from a cursor deep in the
fixture with a pending error and another depth, `SeekToFunction(0x25)` returns
`main.foobar` and leaves the cursor at offset 15. -/
theorem seekToFunction_independent_witness :
    (Reader.SeekToFunction 25 (New fixture) 0x25).map Prod.fst =
      some (some fixtureFoobar, none) ∧
    (Reader.SeekToFunction 25
      { dr := { d := fixture, off := 19, err := some "offset out of range",
                lastChildren := true, lastSibling := 7 }, depth := 4 } 0x25).map Prod.fst =
      (Reader.SeekToFunction 25 (New fixture) 0x25).map Prod.fst :=
  ⟨(seekToFunction_independent fixture 0x25 25 (New fixture)
      { dr := { d := fixture, off := 19, err := some "offset out of range",
                lastChildren := true, lastSibling := 7 }, depth := 4 } rfl rfl (by decide)).1,
    (seekToFunction_independent fixture 0x25 25 (New fixture)
      { dr := { d := fixture, off := 19, err := some "offset out of range",
                lastChildren := true, lastSibling := 7 }, depth := 4 } rfl rfl (by decide)).2.1⟩

/-! ### `SeekToEntry` -/

theorem seekToEntry_error (d : Data) (rd : reader.Reader) (e : Entry) (hd : rd.dr.d = d) :
    (rd.SeekToEntry e).1 = readError d e.Offset := by
  unfold Reader.SeekToEntry readError
  simp only
  by_cases hout : e.Offset ≠ 0 ∧ d.length ≤ e.Offset
  · rw [if_pos hout]
    have hseek : (rd.Seek e.Offset).dr =
        { rd.dr with err := some "offset out of range", lastChildren := false } := by
      have h1 : ¬ e.Offset < rd.dr.d.length := by rw [hd]; omega
      simp [reader.Reader.Seek, dwarf.Reader.Seek, hout.1, h1]
    rw [next_eq _ _ _ (next_of_err (rd.Seek e.Offset).dr "offset out of range" (by rw [hseek]))]
  · rw [if_neg hout]
    have hseek : (rd.Seek e.Offset).dr =
        { rd.dr with err := none, lastChildren := false, off := e.Offset } := by
      unfold reader.Reader.Seek dwarf.Reader.Seek
      by_cases h0 : e.Offset = 0
      · simp [h0]
      · have h1 : e.Offset < rd.dr.d.length := by rw [hd]; omega
        simp [h0, h1]
    have hd' : (rd.Seek e.Offset).dr.d = d := by rw [hseek]; exact hd
    have he' : (rd.Seek e.Offset).dr.err = none := by rw [hseek]
    have ho' : (rd.Seek e.Offset).dr.off = e.Offset := by rw [hseek]
    cases hit : d[e.Offset]? with
    | none =>
      have hlen : d.length ≤ e.Offset := by
        by_contra hcon
        rw [List.getElem?_eq_getElem (by omega)] at hit
        simp at hit
      rw [next_eq _ _ _ (next_of_eof (rd.Seek e.Offset).dr he' (by rw [hd', ho']; exact hlen))]
    | some it =>
      have hit' : (rd.Seek e.Offset).dr.d[(rd.Seek e.Offset).dr.off]? = some it := by
        rw [hd', ho']; exact hit
      cases it with
      | bad msg => rw [next_eq _ _ _ (next_of_bad (rd.Seek e.Offset).dr msg he' hit')]
      | null => rw [next_eq _ _ _ (next_of_null (rd.Seek e.Offset).dr he' hit')]
      | die t c f => rw [next_eq _ _ _ (next_of_die (rd.Seek e.Offset).dr t c f he' hit')]

/-- The entry right behind an entry with children is its first direct child,
unless it is the terminator. -/
theorem head_childrenOf (d : Data) (i : Nat) (t t1 : Tag) (c1 : Bool) (f f1 : List Field)
    (hi : d[i]? = some (Item.die t true f)) (h1 : d[i + 1]? = some (Item.die t1 c1 f1)) :
    (childrenOf d i (fun _ => true)).head? =
      some { Offset := i + 1, Tag := t1, Children := c1, Field := f1 } := by
  have hlen := lt_length_of_getElem? d (i + 1) _ h1
  have hc : childAt d i (fun _ => true) (i + 1) =
      some { Offset := i + 1, Tag := t1, Children := c1, Field := f1 } := by
    have : isChild d i (i + 1) := by
      unfold isChild
      rw [ancestors_succ_die_true d i t f hi]; rfl
    simp [childAt, h1, this]
  unfold childrenOf
  rw [List.range_eq_range']
  have hskip := filterMap_range_skip (childAt d i (fun _ => true)) 0 (i + 1) d.length
    (by omega) (by omega)
    (fun j _ h2 => childAt_of_not_isChild d i _ j
      (not_isChild_of_not_mem d i j (not_mem_ancestors_of_le d i j (by omega))))
  simp only [Nat.sub_zero] at hskip
  rw [hskip, filterMap_range_cons _ _ _ hlen, hc]
  rfl

/-- C12: `SeekToEntry(e)` returns exactly the error of reading the entry at
`e.Offset` (none when that entry can be read), from any prior cursor state; and
when `e` is an entry of the stream with children, the first of which is the
entry right behind it, `SeekToEntry(e)` succeeds and the next `Next` returns
that first child. -/
theorem seekToEntry_then_first_child (d : Data) (rd : reader.Reader) (e : Entry)
    (hd : rd.dr.d = d) :
    (rd.SeekToEntry e).1 = readError d e.Offset ∧
    ∀ t c f, readAt d e.Offset = some e → e.Children = true →
      d[e.Offset + 1]? = some (Item.die t c f) →
      (rd.SeekToEntry e).1 = none ∧
      (rd.SeekToEntry e).2.Next.1 =
        (some { Offset := e.Offset + 1, Tag := t, Children := c, Field := f }, none) ∧
      (childrenOf d e.Offset (fun _ => true)).head? =
        some { Offset := e.Offset + 1, Tag := t, Children := c, Field := f } := by
  refine ⟨seekToEntry_error d rd e hd, fun t c f hf hc h1 => ?_⟩
  obtain ⟨h2, h3⟩ := seekToEntry_justRead d rd e hd hf
  obtain ⟨h4, h5, p, h6, h7⟩ := h3
  have hp : e.Offset = p := by
    unfold readAt at h7
    split at h7
    · simp only [Option.some.injEq] at h7
      rw [← h7]
    · simp only [Option.some.injEq] at h7
      rw [← h7] at hc
      simp at hc
    · simp at h7
  have hi : d[e.Offset]? = some (Item.die e.Tag true e.Field) := by
    unfold readAt at hf
    split at hf
    · rename_i t' c' f' hit
      simp only [Option.some.injEq] at hf
      rw [← hf] at hc ⊢
      simp only at hc ⊢
      rw [hit, hc]
    · simp only [Option.some.injEq] at hf
      rw [← hf] at hc
      simp at hc
    · simp at hf
  refine ⟨h2, ?_, head_childrenOf d e.Offset e.Tag t c e.Field f hi h1⟩
  have hnx := next_of_die (rd.SeekToEntry e).2.dr t c f h5
    (by rw [h4, h6, ← hp]; exact h1)
  rw [next_eq _ _ _ hnx, h6, ← hp]

/-- C12 at a concrete input: after `SeekToEntry(main.foobar)` on the fixture,
`Next` returns the parameter `baz`, the first child of `main.foobar`; and
`SeekToEntry` on an entry whose offset lies outside the section returns the
error of the read. -/
theorem seekToEntry_then_first_child_witness :
    ((New fixture).SeekToEntry fixtureFoobar).1 = none ∧
    ((New fixture).SeekToEntry fixtureFoobar).2.Next.1 = (some fixtureBaz0, none) ∧
    ((New fixture).SeekToEntry { fixtureFoobar with Offset := 40 }).1 =
      some "offset out of range" :=
  ⟨((seekToEntry_then_first_child fixture (New fixture) fixtureFoobar rfl).2
      TagFormalParameter false [⟨AttrName, Value.string "baz"⟩, ⟨AttrType, Value.offset 1⟩]
      rfl rfl rfl).1,
    ((seekToEntry_then_first_child fixture (New fixture) fixtureFoobar rfl).2
      TagFormalParameter false [⟨AttrName, Value.string "baz"⟩, ⟨AttrType, Value.offset 1⟩]
      rfl rfl rfl).2.1,
    (seekToEntry_then_first_child fixture (New fixture)
      { fixtureFoobar with Offset := 40 } rfl).1⟩

/-! ### The depth field -/

theorem skipChildren_depth (rd rd' : reader.Reader) (fuel : Nat)
    (h : rd.SkipChildren fuel = some rd') : rd'.depth = rd.depth := by
  unfold reader.Reader.SkipChildren at h
  split at h
  · simp only [Option.some.injEq] at h
    rw [← h]
  · simp at h

theorem seekToFunctionLoop_depth (pc : Nat) : ∀ fuel (rd rd' : reader.Reader) (res : Result),
    Reader.seekToFunctionLoop pc fuel rd = some (res, rd') → rd'.depth = rd.depth := by
  intro fuel
  induction fuel with
  | zero => intro rd rd' res h; simp [Reader.seekToFunctionLoop] at h
  | succ fuel ih =>
    intro rd rd' res h
    cases hn : rd.Next with
    | mk r1 rd1 =>
      have hdep : rd1.depth = rd.depth := by
        have : rd.Next.2.depth = rd.depth := rfl
        rw [hn] at this; exact this
      obtain ⟨re, rerr⟩ := r1
      cases re with
      | none =>
        rw [Reader.seekToFunctionLoop, hn] at h
        simp only [Option.some.injEq, Prod.mk.injEq] at h
        rw [← h.2]; exact hdep
      | some e =>
        cases rerr with
        | some x =>
          rw [Reader.seekToFunctionLoop, hn] at h
          simp only [Option.isSome_some, if_true, Option.some.injEq, Prod.mk.injEq] at h
          rw [← h.2]; exact hdep
        | none =>
          rw [seekToFunctionLoop_succ pc fuel rd rd1 e hn] at h
          split at h
          · simp only [Option.some.injEq, Prod.mk.injEq] at h
            rw [← h.2]; exact hdep
          · rw [ih rd1 rd' res h, hdep]

theorem seekToTypeLoop_depth (a b : Bool) : ∀ fuel (rd rd' : reader.Reader) (res : Result),
    Reader.seekToTypeLoop a b fuel rd = some (res, rd') →
      rd'.depth = rd.depth ∨ rd'.depth = 0 := by
  intro fuel
  induction fuel with
  | zero => intro rd rd' res h; simp [Reader.seekToTypeLoop] at h
  | succ fuel ih =>
    intro rd rd' res h
    rw [Reader.seekToTypeLoop] at h
    cases hn : rd.Next with
    | mk r1 rd1 =>
      have hdep : rd1.depth = rd.depth := by
        have : rd.Next.2.depth = rd.depth := rfl
        rw [hn] at this; exact this
      have hret : ∀ r : Result, some (r, rd1) = some (res, rd') →
          rd'.depth = rd.depth ∨ rd'.depth = 0 := by
        intro r h'
        simp only [Option.some.injEq, Prod.mk.injEq] at h'
        left; rw [← h'.2]; exact hdep
      obtain ⟨re, rerr⟩ := r1
      rw [hn] at h
      cases re with
      | none => exact hret _ h
      | some e =>
        simp only at h
        split at h
        · exact hret _ h
        · split at h
          · exact hret _ h
          · split at h
            · exact hret _ h
            · split at h
              · rcases ih _ rd' res h with h1 | h1
                · right; rw [h1]; rfl
                · right; exact h1
              · exact hret _ h

theorem nextAtLevel_depth (want : Tag → Bool) : ∀ fuel (rd rd' : reader.Reader) (res : Result),
    Reader.nextAtLevel want fuel rd = some (res, rd') → rd'.depth = rd.depth := by
  intro fuel
  induction fuel with
  | zero => intro rd rd' res h; simp [Reader.nextAtLevel] at h
  | succ fuel ih =>
    intro rd rd' res h
    rw [Reader.nextAtLevel] at h
    cases hn : rd.Next with
    | mk r1 rd1 =>
      have hdep : rd1.depth = rd.depth := by
        have : rd.Next.2.depth = rd.depth := rfl
        rw [hn] at this; exact this
      obtain ⟨re, rerr⟩ := r1
      rw [hn] at h
      cases re with
      | none =>
        simp only [Option.some.injEq, Prod.mk.injEq] at h
        rw [← h.2]; exact hdep
      | some e =>
        simp only at h
        split at h
        · simp only [Option.some.injEq, Prod.mk.injEq] at h
          rw [← h.2]; exact hdep
        · split at h
          · simp at h
          · rename_i rd2 hsk
            have hdep2 := skipChildren_depth rd1 rd2 fuel hsk
            split at h
            · simp only [Option.some.injEq, Prod.mk.injEq] at h
              rw [← h.2, hdep2, hdep]
            · split at h
              · simp only [Option.some.injEq, Prod.mk.injEq] at h
                rw [← h.2, hdep2, hdep]
              · rw [ih rd2 rd' res h, hdep2, hdep]

theorem nextPackageVariable_depth : ∀ fuel (rd rd' : reader.Reader) (res : Result),
    Reader.NextPackageVariable fuel rd = some (res, rd') → rd'.depth = rd.depth := by
  intro fuel
  induction fuel with
  | zero => intro rd rd' res h; simp [Reader.NextPackageVariable] at h
  | succ fuel ih =>
    intro rd rd' res h
    rw [Reader.NextPackageVariable] at h
    cases hn : rd.Next with
    | mk r1 rd1 =>
      have hdep : rd1.depth = rd.depth := by
        have : rd.Next.2.depth = rd.depth := rfl
        rw [hn] at this; exact this
      obtain ⟨re, rerr⟩ := r1
      rw [hn] at h
      cases re with
      | none =>
        simp only [Option.some.injEq, Prod.mk.injEq] at h
        rw [← h.2]; exact hdep
      | some e =>
        simp only at h
        split at h
        · simp only [Option.some.injEq, Prod.mk.injEq] at h
          rw [← h.2]; exact hdep
        · split at h
          · simp only [Option.some.injEq, Prod.mk.injEq] at h
            rw [← h.2]; exact hdep
          · split at h
            · split at h
              · simp at h
              · rename_i rd2 hsk
                rw [ih rd2 rd' res h, skipChildren_depth rd1 rd2 fuel hsk, hdep]
            · rw [ih rd1 rd' res h, hdep]

theorem seekToFunction_depth (fuel pc : Nat) (rd rd' : reader.Reader) (res : Result)
    (h : rd.SeekToFunction fuel pc = some (res, rd')) : rd'.depth = 0 := by
  unfold Reader.SeekToFunction at h
  rw [seekToFunctionLoop_depth pc fuel _ rd' res h]
  rfl

theorem seekToType_depth (fuel : Nat) (rd rd' : reader.Reader) (e : Entry) (a b : Bool)
    (res : Result) (h : rd.SeekToType fuel e a b = some (res, rd')) :
    rd'.depth = 0 ∨ rd' = rd := by
  unfold Reader.SeekToType at h
  split at h
  · left
    rcases seekToTypeLoop_depth a b fuel _ rd' res h with h1 | h1
    · rw [h1]; rfl
    · exact h1
  · right
    simp only [Option.some.injEq, Prod.mk.injEq] at h
    exact h.2.symm

/-- C13: the depth of the cursor is 0 after `New` and after every `Seek`; the
`Next...Variable` scans (like `Next` and `SkipChildren`) hand it on unchanged;
`SeekToEntry` and `SeekToFunction` leave it at 0 through their `Seek`, and
`SeekToType` leaves it at 0 or, when it fails before seeking, returns the
cursor as it was.  Hence the depth is 0 in every state reachable from `New`
through these operations. -/
theorem depth_always_zero :
    (∀ data : Data, (New data).depth = 0) ∧
    (∀ (rd : reader.Reader) off, (rd.Seek off).depth = 0) ∧
    (∀ (rd : reader.Reader) e, (rd.SeekToEntry e).2.depth = 0) ∧
    (∀ (rd rd' : reader.Reader) fuel pc res,
      rd.SeekToFunction fuel pc = some (res, rd') → rd'.depth = 0) ∧
    (∀ (rd rd' : reader.Reader) fuel e a b res,
      rd.SeekToType fuel e a b = some (res, rd') → rd'.depth = 0 ∨ rd' = rd) ∧
    (∀ (rd rd' : reader.Reader) fuel res,
      rd.NextScopeVariable fuel = some (res, rd') → rd'.depth = rd.depth) ∧
    (∀ (rd rd' : reader.Reader) fuel res,
      rd.NextMemberVariable fuel = some (res, rd') → rd'.depth = rd.depth) ∧
    (∀ (rd rd' : reader.Reader) fuel res,
      rd.NextPackageVariable fuel = some (res, rd') → rd'.depth = rd.depth) ∧
    (∀ rd : reader.Reader, Reachable rd → rd.depth = 0) := by
  have hscope : ∀ (rd rd' : reader.Reader) fuel res,
      rd.NextScopeVariable fuel = some (res, rd') → rd'.depth = rd.depth := by
    intro rd rd' fuel res h
    rw [nextScopeVariable_eq] at h
    exact nextAtLevel_depth _ fuel rd rd' res h
  have hmember : ∀ (rd rd' : reader.Reader) fuel res,
      rd.NextMemberVariable fuel = some (res, rd') → rd'.depth = rd.depth := by
    intro rd rd' fuel res h
    rw [nextMemberVariable_eq] at h
    exact nextAtLevel_depth _ fuel rd rd' res h
  refine ⟨fun _ => rfl, fun _ _ => rfl, fun _ _ => rfl,
    fun rd rd' fuel pc res h => seekToFunction_depth fuel pc rd rd' res h,
    fun rd rd' fuel e a b res h => seekToType_depth fuel rd rd' e a b res h,
    hscope, hmember,
    fun rd rd' fuel res h => nextPackageVariable_depth fuel rd rd' res h, ?_⟩
  intro rd hr
  induction hr with
  | new data => rfl
  | seek rd off _ _ => rfl
  | next rd _ ih => exact ih
  | skipChildren rd rd' fuel _ h ih => rw [skipChildren_depth rd rd' fuel h]; exact ih
  | seekToEntry rd entry _ _ => rfl
  | seekToFunction rd rd' fuel pc res _ h _ => exact seekToFunction_depth fuel pc rd rd' res h
  | seekToType rd rd' fuel entry a b res _ h ih =>
    rcases seekToType_depth fuel rd rd' entry a b res h with h1 | h1
    · exact h1
    · rw [h1]; exact ih
  | nextScopeVariable rd rd' fuel res _ h ih => rw [hscope rd rd' fuel res h]; exact ih
  | nextMemberVariable rd rd' fuel res _ h ih => rw [hmember rd rd' fuel res h]; exact ih
  | nextPackageVariable rd rd' fuel res _ h ih =>
    rw [nextPackageVariable_depth fuel rd rd' res h]; exact ih

/-- C13 at a concrete input: the state reached on the fixture by
`SeekToFunction(0x25)` followed by `NextScopeVariable` is reachable, and its
depth is 0. -/
theorem depth_always_zero_witness :
    Reachable
      { dr := { d := fixture, off := 16, err := none, lastChildren := false, lastSibling := 0 },
        depth := 0 } ∧
    reader.Reader.depth
      { dr := { d := fixture, off := 16, err := none, lastChildren := false, lastSibling := 0 },
        depth := 0 } = 0 :=
  (fun h => ⟨h, depth_always_zero.2.2.2.2.2.2.2.2 _ h⟩)
    (Reachable.nextScopeVariable
      { dr := { d := fixture, off := 15, err := none, lastChildren := true, lastSibling := 0 },
        depth := 0 } _ 25 (some fixtureBaz0, none)
      (Reachable.seekToFunction (New fixture) _ 25 0x25 (some fixtureFoobar, none)
        (Reachable.new fixture) rfl) rfl)

/-! ### Termination of `SeekToType` -/

theorem next_after_seek_none (rd : reader.Reader) (off : Nat)
    (h : readAt rd.dr.d off = none) : (rd.Seek off).Next.1.1 = none := by
  by_cases hout : off ≠ 0 ∧ rd.dr.d.length ≤ off
  · have hseek : (rd.Seek off).dr =
        { rd.dr with err := some "offset out of range", lastChildren := false } := by
      have h1 : ¬ off < rd.dr.d.length := by omega
      simp [reader.Reader.Seek, dwarf.Reader.Seek, hout.1, h1]
    rw [next_eq _ _ _ (next_of_err (rd.Seek off).dr "offset out of range" (by rw [hseek]))]
  · have hseek : (rd.Seek off).dr =
        { rd.dr with err := none, lastChildren := false, off := off } := by
      unfold reader.Reader.Seek dwarf.Reader.Seek
      by_cases h0 : off = 0
      · simp [h0]
      · have h1 : off < rd.dr.d.length := by omega
        simp [h0, h1]
    have hd' : (rd.Seek off).dr.d = rd.dr.d := by rw [hseek]
    have he' : (rd.Seek off).dr.err = none := by rw [hseek]
    have ho' : (rd.Seek off).dr.off = off := by rw [hseek]
    cases hit : rd.dr.d[off]? with
    | none =>
      have hlen : rd.dr.d.length ≤ off := by
        by_contra hcon
        rw [List.getElem?_eq_getElem (by omega)] at hit
        simp at hit
      rw [next_eq _ _ _ (next_of_eof (rd.Seek off).dr he' (by rw [hd', ho']; exact hlen))]
    | some it =>
      have hit' : (rd.Seek off).dr.d[(rd.Seek off).dr.off]? = some it := by
        rw [hd', ho']; exact hit
      cases it with
      | bad msg => rw [next_eq _ _ _ (next_of_bad (rd.Seek off).dr msg he' hit')]
      | null => simp [readAt, hit] at h
      | die t c f => simp [readAt, hit] at h

/-- The loop of `SeekToType` returns within `n` reads when the chain it follows
ends within `n` reads. -/
theorem seekToTypeLoop_terminates (a b : Bool) : ∀ n off (rd : reader.Reader),
    chainEnds rd.dr.d n off = true →
      (Reader.seekToTypeLoop a b n (rd.Seek off)).isSome = true := by
  intro n
  induction n with
  | zero => intro off rd h; simp [chainEnds] at h
  | succ n ih =>
    intro off rd h
    rw [Reader.seekToTypeLoop]
    cases hread : readAt rd.dr.d off with
    | none =>
      have hnone := next_after_seek_none rd off hread
      cases hn : (rd.Seek off).Next with
      | mk res rd1 =>
        obtain ⟨re, rerr⟩ := res
        rw [hn] at hnone
        simp only at hnone
        subst hnone
        rfl
    | some c =>
      obtain ⟨rd1, hnext, hd1⟩ := next_after_seek rd off c hread
      rw [hnext]
      simp only [Option.isSome_none, Bool.false_eq_true, if_false]
      split
      · rfl
      · split
        · rfl
        · split
          · rename_i o ho
            have hto : typeOffset c = some o := by simp [typeOffset, ho]
            rw [chainEnds, hread] at h
            simp only [hto] at h
            exact ih o rd1 (by rw [hd1]; exact h)
          · rfl

theorem chainEnds_length (d : Data) : ∀ n off, chainEnds d n off = true →
    chainEnds d (chainOffsets d n off).length off = true := by
  intro n
  induction n with
  | zero => intro off h; simp [chainEnds] at h
  | succ n ih =>
    intro off h
    rw [chainEnds] at h
    rw [chainOffsets]
    cases hread : readAt d off with
    | none => simp [chainEnds, hread]
    | some c =>
      rw [hread] at h
      cases hto : typeOffset c with
      | none => simp [chainEnds, hread, hto]
      | some o =>
        simp only [hto] at h
        have := ih o h
        simp only [List.length_cons, chainEnds, hread, hto]
        exact this

theorem chainOffsets_of_not_ends (d : Data) : ∀ n off, chainEnds d n off = false →
    (chainOffsets d n off).length = n ∧ ∀ x ∈ chainOffsets d n off, x < d.length := by
  intro n
  induction n with
  | zero => intro off _; simp [chainOffsets]
  | succ n ih =>
    intro off h
    cases hread : readAt d off with
    | none => simp [chainEnds, hread] at h
    | some c =>
      have hlt : off < d.length := by
        unfold readAt at hread
        split at hread
        · rename_i hit; exact lt_length_of_getElem? _ _ _ hit
        · rename_i hit; exact lt_length_of_getElem? _ _ _ hit
        · simp at hread
      cases hto : typeOffset c with
      | none => simp [chainEnds, hread, hto] at h
      | some o =>
        simp only [chainEnds, hread, hto] at h
        obtain ⟨h1, h2⟩ := ih o h
        simp only [chainOffsets, hread, hto]
        refine ⟨by simp [h1], ?_⟩
        intro x hx
        rcases List.mem_cons.1 hx with h3 | h3
        · rw [h3]; exact hlt
        · exact h2 x h3

/-- A chain of `Type` back-references that never visits an offset twice ends
within one read more than the stream has items. -/
theorem chainEnds_of_nodup (d : Data) (off : Nat)
    (h : (chainOffsets d (d.length + 1) off).Nodup) : chainEnds d (d.length + 1) off = true := by
  by_contra hcon
  have hf : chainEnds d (d.length + 1) off = false := by simpa using hcon
  obtain ⟨h1, h2⟩ := chainOffsets_of_not_ends d (d.length + 1) off hf
  have hsub : chainOffsets d (d.length + 1) off ⊆ List.range d.length :=
    fun x hx => List.mem_range.2 (h2 x hx)
  have := (h.subperm hsub).length_le
  rw [h1, List.length_range] at this
  omega

theorem seekToTypeLoop_cycle : ∀ fuel (rd : reader.Reader), rd.dr.d = cyclicTypes →
    Reader.seekToTypeLoop true true fuel (rd.Seek 0) = none ∧
      Reader.seekToTypeLoop true true fuel (rd.Seek 1) = none := by
  intro fuel
  induction fuel with
  | zero => intro rd _; exact ⟨rfl, rfl⟩
  | succ fuel ih =>
    intro rd hd
    constructor
    · obtain ⟨rd1, hnext, hd1⟩ := next_after_seek rd 0 cyclicA (by rw [hd]; rfl)
      rw [Reader.seekToTypeLoop, hnext]
      have hv : cyclicA.Val AttrType = some (Value.offset 1) := rfl
      simp only [Option.isSome_none, Bool.false_eq_true, if_false, Bool.not_true, and_false, hv]
      exact (ih rd1 (by rw [hd1]; exact hd)).2
    · obtain ⟨rd1, hnext, hd1⟩ := next_after_seek rd 1 cyclicB (by rw [hd]; rfl)
      rw [Reader.seekToTypeLoop, hnext]
      have hv : cyclicB.Val AttrType = some (Value.offset 0) := rfl
      simp only [Option.isSome_none, Bool.false_eq_true, if_false, Bool.not_true, and_false, hv]
      exact (ih rd1 (by rw [hd1]; exact hd)).1

/-- C14: when the chain of `Type` back-references of `e` is acyclic (it never
visits an offset twice), `SeekToType` returns, an entry or an error, with fuel
for as many reads as the chain has offsets, whatever the flags.  The loop has
no cycle guard: on two typedefs that name each other, with `resolveTypedefs`
set, no amount of fuel lets it return, while with `resolveTypedefs` unset it
returns at the first typedef. -/
theorem seekToType_terminates_on_acyclic (d : Data) (rd : reader.Reader) (e : Entry) (o : Nat)
    (a b : Bool) (hd : rd.dr.d = d) (he : typeOffset e = some o)
    (hacyclic : (chainOffsets d (d.length + 1) o).Nodup) :
    (Reader.SeekToType (chainOffsets d (d.length + 1) o).length rd e a b).isSome = true ∧
    (∀ fuel, Reader.SeekToType fuel (New cyclicTypes) typedAtZero true true = none) ∧
    (Reader.SeekToType 1 (New cyclicTypes) typedAtZero false true).isSome = true := by
  refine ⟨?_, fun fuel => ?_, rfl⟩
  · unfold Reader.SeekToType
    rw [val_type_of_typeOffset_some e o he]
    simp only
    apply seekToTypeLoop_terminates
    rw [hd]
    exact chainEnds_length d _ o (chainEnds_of_nodup d o hacyclic)
  · unfold Reader.SeekToType
    rw [val_type_of_typeOffset_some typedAtZero 0 rfl]
    exact (seekToTypeLoop_cycle fuel (New cyclicTypes) rfl).1

/-- C14 at a concrete input: the chain of `a8` in the fixture visits the
offsets 10 and 6, and two reads let `SeekToType` return. -/
theorem seekToType_terminates_on_acyclic_witness :
    chainOffsets fixture (fixture.length + 1) 10 = [10, 6] ∧
    (Reader.SeekToType 2 (New fixture) fixtureA8 true true).isSome = true :=
  ⟨by decide,
    (seekToType_terminates_on_acyclic fixture (New fixture) fixtureA8 10 true true rfl rfl
      (by decide)).1⟩

/-! ### Composition of type resolution -/

theorem isTypeChain_ne_nil (d : Data) (o : Nat) (cs : List Entry) (h : isTypeChain d o cs) :
    cs ≠ [] := by
  intro hn
  subst hn
  simp [isTypeChain] at h

theorem seekToType_eq_find (d : Data) (rd : reader.Reader) (e : Entry) (o : Nat)
    (cs : List Entry) (a b : Bool) (fuel : Nat) (hd : rd.dr.d = d) (he : typeOffset e = some o)
    (hchain : isTypeChain d o cs) (hfuel : cs.length ≤ fuel) :
    (Reader.SeekToType fuel rd e a b).map Prod.fst = some (cs.find? (stopsAt a b), none) := by
  obtain ⟨c, rd', h1, h2⟩ := seekToTypeLoop_chain a b cs o fuel rd (by rw [hd]; exact hchain) hfuel
  unfold Reader.SeekToType
  rw [val_type_of_typeOffset_some e o he]
  simp only
  rw [h1, h2]; rfl

/-- Where resolution stops on a chain: at its base when the entry has no `Type`
offset, else in front of a shorter chain with the same base. -/
theorem typeChain_split (d : Data) (a b : Bool) (w : Entry) : ∀ (cs : List Entry) (o : Nat),
    isTypeChain d o cs → cs.find? (stopsAt a b) = some w →
      (typeOffset w = none → cs.getLast? = some w) ∧
      (∀ o', typeOffset w = some o' → ∃ post, isTypeChain d o' post ∧
        post.length ≤ cs.length ∧ cs.getLast? = post.getLast?) := by
  intro cs
  induction cs with
  | nil => intro o h; simp [isTypeChain] at h
  | cons c rest ih =>
    intro o hchain hfind
    obtain ⟨_, hrest⟩ := hchain
    rw [List.find?_cons] at hfind
    cases hs : stopsAt a b c with
    | true =>
      rw [hs] at hfind
      simp only [Option.some.injEq] at hfind
      subst hfind
      constructor
      · intro hto
        rw [hto] at hrest
        simp only at hrest
        subst hrest
        rfl
      · intro o' hto
        rw [hto] at hrest
        simp only at hrest
        refine ⟨rest, hrest, by simp, ?_⟩
        obtain ⟨c2, rest2, rfl⟩ := List.exists_cons_of_ne_nil (isTypeChain_ne_nil d o' rest hrest)
        rw [List.getLast?_cons_cons]
    | false =>
      rw [hs] at hfind
      simp only at hfind
      cases hto : typeOffset c with
      | none => simp [stopsAt, hto] at hs
      | some o1 =>
        rw [hto] at hrest
        simp only at hrest
        obtain ⟨h1, h2⟩ := ih o1 hrest hfind
        obtain ⟨c2, rest2, rfl⟩ := List.exists_cons_of_ne_nil (isTypeChain_ne_nil d o1 rest hrest)
        constructor
        · intro hw
          rw [List.getLast?_cons_cons]
          exact h1 hw
        · intro o' hw
          obtain ⟨post, h3, h4, h5⟩ := h2 o' hw
          refine ⟨post, h3, by simp at h4 ⊢; omega, ?_⟩
          rw [List.getLast?_cons_cons]
          exact h5

/-- C16: let `e` have a finite, readable chain of `Type` back-references and
let `w` be what `SeekToType(e, false, false)` returns.  If `w` has a `Type`
offset, `SeekToType(w, true, true)` (from any cursor state) returns what
`SeekToType(e, true, true)` returns; if `w` has none, `SeekToType(e, true,
true)` returns `w`. -/
theorem seekToType_composes (d : Data) (rd rd2 : reader.Reader) (e w : Entry) (o : Nat)
    (cs : List Entry) (fuel : Nat) (hd : rd.dr.d = d) (hd2 : rd2.dr.d = d)
    (he : typeOffset e = some o) (hchain : isTypeChain d o cs) (hfuel : cs.length ≤ fuel)
    (hw : (Reader.SeekToType fuel rd e false false).map Prod.fst = some (some w, none)) :
    (typeOffset w ≠ none →
      (Reader.SeekToType fuel rd2 w true true).map Prod.fst =
        (Reader.SeekToType fuel rd e true true).map Prod.fst) ∧
    (typeOffset w = none →
      (Reader.SeekToType fuel rd e true true).map Prod.fst = some (some w, none)) := by
  have hfind : cs.find? (stopsAt false false) = some w := by
    rw [seekToType_eq_find d rd e o cs false false fuel hd he hchain hfuel] at hw
    simp only [Option.some.injEq, Prod.mk.injEq, and_true] at hw
    exact hw
  have hfull := seekToType_eq_find d rd e o cs true true fuel hd he hchain hfuel
  obtain ⟨hbase, _⟩ := typeChain_base d cs o hchain
  obtain ⟨h1, h2⟩ := typeChain_split d false false w cs o hchain hfind
  constructor
  · intro hne
    obtain ⟨o', ho'⟩ := Option.ne_none_iff_exists'.1 hne
    obtain ⟨post, h3, h4, h5⟩ := h2 o' ho'
    rw [hfull, hbase, h5,
      seekToType_eq_find d rd2 w o' post true true fuel hd2 ho' h3 (by omega),
      (typeChain_base d post o' h3).1]
  · intro hnone
    rw [hfull, hbase, h1 hnone]

/-- C16 at a concrete input: for `a8` of the fixture, `SeekToType(a8, false,
false)` returns the typedef `main.Alias`, and resolving the typedef fully gives
the struct `main.FooBar2`, as resolving `a8` fully does. -/
theorem seekToType_composes_witness :
    (Reader.SeekToType 2 (New fixture) fixtureA8 false false).map Prod.fst =
      some (some fixtureAlias, none) ∧
    (Reader.SeekToType 2 (New fixture) fixtureAlias true true).map Prod.fst =
      (Reader.SeekToType 2 (New fixture) fixtureA8 true true).map Prod.fst :=
  ⟨rfl,
    (seekToType_composes fixture (New fixture) (New fixture) fixtureA8 fixtureAlias 10
      [fixtureAlias, fixtureFooBar2] 2 rfl rfl rfl ⟨rfl, rfl, rfl⟩ (by decide) rfl).1
      (by decide)⟩
